import Mathlib

set_option linter.unusedSectionVars false
set_option linter.unusedVariables false

/-!
Shallow embedding of the algorithmic core of `digraphx`:

* `src/digraphx/neg_cycle.py` — `NegCycleFinder` (`relax`, `find_cycle`,
  `cycle_list`, `is_negative`, `howard`);
* `src/digraphx/neg_cycle_q.py` — the q-variant `find_cycle(point_to)`;
* `src/digraphx/parametric.py` — `MaxParametricSolver.run`;
* `src/digraphx/min_cycle_ratio.py` — `CycleRatioAPI`.

Python dictionaries are modelled as ordered association lists (insertion
order is the iteration order); the mutable `dist` mapping, which the spec
requires to be defined on every node, is modelled as a total function;
the unbounded `while` loops are modelled with an explicit fuel parameter
together with a `Bool` flag telling whether the loop finished on its own
(`true`) rather than by running out of fuel.
-/

section CoreDefs

variable {ν : Type} [DecidableEq ν] {ε : Type} [DecidableEq ε]
variable {D : Type} [LinearOrderedAddCommGroup D]

/-- Lookup in an association list, mirroring Python `dict` access
(the most recent binding is consed at the front, hence first match wins). -/
def alookup {α : Type} : List (ν × α) → ν → Option α
  | [], _ => none
  | (k, a) :: rest, x => if x = k then some a else alookup rest x

/-- Pointwise update of a total map, mirroring `dist[v] = d`. -/
def updF {α : Type} (f : ν → α) (x : ν) (a : α) : ν → α :=
  fun y => if y = x then a else f y

/-- The adjacency mapping `Mapping[Node, Mapping[Node, Edge]]`, as an ordered
association list of (node, ordered neighbour list) entries. -/
abbrev Graph (ν ε : Type) := List (ν × List (ν × ε))

/-- The predecessor map `pred: Dict[Node, Tuple[Node, Edge]]`. -/
abbrev PredMap (ν ε : Type) := List (ν × (ν × ε))

/-- All edges `(u, v, e)` of the digraph in the order of the two nested
`for` loops of `relax`. -/
def edgesOf (g : Graph ν ε) : List (ν × ν × ε) :=
  g.flatMap (fun p => p.2.map (fun q => (p.1, q.1, q.2)))

/-- The node set of the digraph: keys together with all neighbour targets. -/
def nodesOf (g : Graph ν ε) : Finset ν :=
  (g.map Prod.fst ++ g.flatMap (fun p => p.2.map Prod.fst)).toFinset

/-- Number of distinct nodes of the digraph. -/
def nodeCount (g : Graph ν ε) : Nat := (nodesOf g).card

/-- State carried through one `relax` sweep: the distance labelling, the
predecessor map and the `changed` flag. -/
structure RState (ν ε D : Type) where
  dist : ν → D
  pred : PredMap ν ε
  changed : Bool

/-- Processing of a single edge inside `NegCycleFinder.relax`:
`distance = dist[utx] + get_weight(edge)`; if `dist[vtx] > distance` then
`dist[vtx] = distance`, `pred[vtx] = (utx, edge)`, `changed = True`. -/
def relaxEdge (w : ε → D) (st : RState ν ε D) (t : ν × ν × ε) : RState ν ε D :=
  if st.dist t.1 + w t.2.2 < st.dist t.2.1 then
    ⟨updF st.dist t.2.1 (st.dist t.1 + w t.2.2), (t.2.1, (t.1, t.2.2)) :: st.pred, true⟩
  else st

/-- `NegCycleFinder.relax`: one sweep over all edges via the two nested
`for` loops, starting from `changed = False`. -/
def relax (g : Graph ν ε) (w : ε → D) (dist : ν → D) (pred : PredMap ν ε) :
    RState ν ε D :=
  g.foldl (fun st p => p.2.foldl (fun st q => relaxEdge w st (p.1, q.1, q.2)) st)
    ⟨dist, pred, false⟩

/-- Inner `while utx in self.pred` walk of `neg_cycle.NegCycleFinder.find_cycle`.
The caller has already recorded `visited[utx] = vtx`.  Returns the (at most
one) yielded handle together with the updated `visited`; `none` when the
fuel ran out (with enough fuel this never happens, see `fcWalk_isSome`). -/
def fcWalk (pt : PredMap ν ε) (vtx : ν) :
    Nat → ν → List (ν × ν) → Option (List ν × List (ν × ν))
  | 0, _, _ => none
  | fuel + 1, utx, visited =>
    match alookup pt utx with
    | none => some ([], visited)
    | some (u, _) =>
      match alookup visited u with
      | some tag => some (if tag = vtx then [u] else [], visited)
      | none => fcWalk pt vtx fuel u ((u, vtx) :: visited)

/-- Outer `for vtx in filter(...)` loop of `neg_cycle.NegCycleFinder.find_cycle`. -/
def fcOuter (pt : PredMap ν ε) (wf : Nat) :
    List ν → List (ν × ν) → Option (List ν)
  | [], _ => some []
  | vtx :: rest, visited =>
    if (alookup visited vtx).isSome then fcOuter pt wf rest visited
    else
      match fcWalk pt vtx wf vtx ((vtx, vtx) :: visited) with
      | none => none
      | some pr => (fcOuter pt wf rest pr.2).map (fun zs => pr.1 ++ zs)

/-- `neg_cycle.NegCycleFinder.find_cycle`: the yielded cycle handles, in order.
`pt.length + 1` fuel always suffices for each walk (`fcWalk_isSome`). -/
def find_cycle (g : Graph ν ε) (pt : PredMap ν ε) : Option (List ν) :=
  fcOuter pt (pt.length + 1) (g.map Prod.fst) []

/-- Inner `while True` walk of `neg_cycle_q.NegCycleFinder.find_cycle(point_to)`,
which records `visited[utx] = vtx` at the top of the loop body. -/
def fcWalkQ (pt : PredMap ν ε) (vtx : ν) :
    Nat → ν → List (ν × ν) → Option (List ν × List (ν × ν))
  | 0, _, _ => none
  | fuel + 1, utx, visited =>
    let visited' := (utx, vtx) :: visited
    match alookup pt utx with
    | none => some ([], visited')
    | some (u, _) =>
      match alookup visited' u with
      | some tag => some (if tag = vtx then [u] else [], visited')
      | none => fcWalkQ pt vtx fuel u visited'

/-- Outer loop of `neg_cycle_q.NegCycleFinder.find_cycle(point_to)`. -/
def fcOuterQ (pt : PredMap ν ε) (wf : Nat) :
    List ν → List (ν × ν) → Option (List ν)
  | [], _ => some []
  | vtx :: rest, visited =>
    if (alookup visited vtx).isSome then fcOuterQ pt wf rest visited
    else
      match fcWalkQ pt vtx wf vtx visited with
      | none => none
      | some pr => (fcOuterQ pt wf rest pr.2).map (fun zs => pr.1 ++ zs)

/-- `neg_cycle_q.NegCycleFinder.find_cycle(point_to)`. -/
def find_cycle_q (g : Graph ν ε) (pt : PredMap ν ε) : Option (List ν) :=
  fcOuterQ pt (pt.length + 1) (g.map Prod.fst) []

/-- Loop of `NegCycleFinder.cycle_list`: follow `pred` from `handle`,
collecting edges, until the walk returns to `handle`.  (On a genuine
policy-graph cycle the fuel `pt.length + 1` suffices; a missing `pred`
entry would be a `KeyError` in Python and stops the collection here.) -/
def clGo (pt : PredMap ν ε) (handle : ν) : Nat → ν → List ε → List ε
  | 0, _, acc => acc.reverse
  | fuel + 1, vtx, acc =>
    match alookup pt vtx with
    | none => acc.reverse
    | some (u, e) => if u = handle then (e :: acc).reverse else clGo pt handle fuel u (e :: acc)

/-- `NegCycleFinder.cycle_list`. -/
def cycle_list (pt : PredMap ν ε) (handle : ν) : List ε :=
  clGo pt handle (pt.length + 1) handle []

/-- Loop of `NegCycleFinder.is_negative`: follow `pred` from `handle` looking
for an edge with `dist[vtx] > dist[utx] + get_weight(edge)`. -/
def isNegGo (pt : PredMap ν ε) (dist : ν → D) (w : ε → D) (handle : ν) :
    Nat → ν → Bool
  | 0, _ => false
  | fuel + 1, vtx =>
    match alookup pt vtx with
    | none => false
    | some (u, e) =>
      if dist u + w e < dist vtx then true
      else if u = handle then false else isNegGo pt dist w handle fuel u

/-- `NegCycleFinder.is_negative`. -/
def is_negative (pt : PredMap ν ε) (dist : ν → D) (w : ε → D) (handle : ν) : Bool :=
  isNegGo pt dist w handle (pt.length + 1) handle

/-- The `while not found and self.relax(...)` loop of `NegCycleFinder.howard`.
Returns the yielded cycles, the final state and whether the generator was
exhausted normally (`true`: the loop left via `found` or via `relax`
returning `False`, with every `assert self.is_negative(...)` passing). -/
def howardGo (g : Graph ν ε) (w : ε → D) :
    Nat → RState ν ε D → List (List ε) × RState ν ε D × Bool
  | 0, st => ([], st, false)
  | fuel + 1, st =>
    let st' := relax g w st.dist st.pred
    if st'.changed then
      match find_cycle g st'.pred with
      | none => ([], st', false)
      | some handles =>
        if handles.isEmpty then howardGo g w fuel st'
        else
          let good := handles.takeWhile (fun h => is_negative st'.pred st'.dist w h)
          (good.map (fun h => cycle_list st'.pred h), st', good.length == handles.length)
    else ([], st', true)

/-- `NegCycleFinder.howard`: `self.pred = {}` then the relaxation loop. -/
def howard (g : Graph ν ε) (w : ε → D) (dist : ν → D) (fuel : Nat) :
    List (List ε) × RState ν ε D × Bool :=
  howardGo g w fuel ⟨dist, [], false⟩

end CoreDefs

section ParametricDefs

variable {ν : Type} [DecidableEq ν] {ε : Type} [DecidableEq ε]

/-- The `ParametricAPI` oracle: a `distance` / `zero_cancel` callback pair
(ratios in `ℚ`, matching `Fraction`). -/
structure ParametricAPI (ε : Type) where
  distance : ℚ → ε → ℚ
  zero_cancel : List ε → ℚ

/-- The `if r_min > ri: r_min = ri; c_min = ci` update inside the
`for ci in ncf.howard(...)` loop of `MaxParametricSolver.run`. -/
def updMin (ω : ParametricAPI ε) (rc : ℚ × List ε) (ci : List ε) : ℚ × List ε :=
  let ri := ω.zero_cancel ci
  if ri < rc.1 then (ri, ci) else rc

/-- The `while True` loop of `MaxParametricSolver.run`.  The state mirrors the
Python locals `dist, ratio, r_min, c_min, cycle`; `hf` is the fuel handed to
each inner `howard` invocation.  The `Bool` tells whether the loop exited
through its `break` (rather than by running out of fuel). -/
def runLoop (g : Graph ν ε) (ω : ParametricAPI ε) (hf : Nat) :
    Nat → (ν → ℚ) → ℚ → ℚ → List ε → List ε → (ℚ × List ε) × Bool
  | 0, _, ratio, _, _, cycle => ((ratio, cycle), false)
  | fuel + 1, dist, ratio, r_min, c_min, cycle =>
    let r := howard g (fun e => ω.distance ratio e) dist hf
    let rc := r.1.foldl (updMin ω) (r_min, c_min)
    if ratio ≤ rc.1 then ((ratio, cycle), true)
    else runLoop g ω hf fuel r.2.1.dist rc.1 rc.1 rc.2 rc.2

/-- `MaxParametricSolver.run`.  The first statement,
`D = type(next(iter(dist.values())))`, raises `StopIteration` on an empty
`dist` mapping; this is modelled by returning `none`. -/
def MaxParametricSolver.run (g : Graph ν ε) (ω : ParametricAPI ε)
    (dist : List (ν × ℚ)) (r0 : ℚ) (hf fuel : Nat) :
    Option ((ℚ × List ε) × Bool) :=
  match dist with
  | [] => none
  | _ :: _ => some (runLoop g ω hf fuel (fun v => (alookup dist v).getD 0) r0 r0 [] [])

/-- An edge of `min_cycle_ratio`: the `{"cost": ..., "time": ...}` attribute
mapping (integral attributes, ratios computed in `ℚ`, matching the
`K = Fraction` instantiation). -/
structure CTEdge where
  cost : Int
  time : Int
deriving DecidableEq, Repr

/-- `CycleRatioAPI.distance`: `self.K(edge["cost"]) - ratio * edge["time"]`. -/
def CycleRatioAPI.distance (ratio : ℚ) (edge : CTEdge) : ℚ :=
  (edge.cost : ℚ) - ratio * (edge.time : ℚ)

/-- `CycleRatioAPI.zero_cancel`: `self.K(total_cost) / total_time`. -/
def CycleRatioAPI.zero_cancel (cycle : List CTEdge) : ℚ :=
  (((cycle.map CTEdge.cost).sum : Int) : ℚ) / (((cycle.map CTEdge.time).sum : Int) : ℚ)

end ParametricDefs

section BasicLemmas

variable {ν : Type} [DecidableEq ν] {ε : Type} [DecidableEq ε]
variable {D : Type} [LinearOrderedAddCommGroup D]

theorem alookup_cons {α : Type} (k : ν) (a : α) (l : List (ν × α)) (x : ν) :
    alookup ((k, a) :: l) x = if x = k then some a else alookup l x := rfl

theorem intCast_list_sum (l : List Int) :
    ((l.sum : Int) : ℚ) = (l.map (fun x => (x : ℚ))).sum := by
  induction l with
  | nil => simp
  | cons a l ih => simp [ih]

end BasicLemmas

section ClaimC4

/-- C4: for the cycle-ratio oracle, `distance(r, e)` is `cost(e) − r·time(e)` and,
for every cycle whose total time is nonzero, `zero_cancel(C)` is
`(Σ cost(e)) / (Σ time(e))` computed in the ratio type. -/
theorem cycle_ratio_api_spec (ratio : ℚ) (e : CTEdge) (c : List CTEdge)
    (ht : (c.map CTEdge.time).sum ≠ 0) :
    CycleRatioAPI.distance ratio e = (e.cost : ℚ) - ratio * (e.time : ℚ) ∧
    CycleRatioAPI.zero_cancel c
      = (c.map (fun d => (d.cost : ℚ))).sum / (c.map (fun d => (d.time : ℚ))).sum := by
  refine ⟨rfl, ?_⟩
  have key : ∀ (f : CTEdge → Int) (l : List CTEdge),
      (((l.map f).sum : Int) : ℚ) = (l.map (fun d => ((f d : Int) : ℚ))).sum := by
    intro f l
    induction l with
    | nil => simp
    | cons a l ih => simp [ih]
  unfold CycleRatioAPI.zero_cancel
  rw [key CTEdge.cost c, key CTEdge.time c]

/-- Witness for `cycle_ratio_api_spec` at a concrete two-edge cycle. -/
theorem cycle_ratio_api_spec_witness :
    CycleRatioAPI.distance 2 ⟨3, 4⟩ = ((3 : Int) : ℚ) - 2 * ((4 : Int) : ℚ) ∧
    CycleRatioAPI.zero_cancel [⟨3, 1⟩, ⟨1, 1⟩]
      = (([⟨3, 1⟩, ⟨1, 1⟩] : List CTEdge).map (fun d => (d.cost : ℚ))).sum
        / (([⟨3, 1⟩, ⟨1, 1⟩] : List CTEdge).map (fun d => (d.time : ℚ))).sum :=
  cycle_ratio_api_spec 2 ⟨3, 4⟩ [⟨3, 1⟩, ⟨1, 1⟩] (by decide)

end ClaimC4

section ClaimC9

variable {ν : Type} [DecidableEq ν] {ε : Type} [DecidableEq ε]

/-- C9: `MaxParametricSolver.run` on an empty `dist` mapping fails while
deriving the domain type from the first `dist` value (`next(iter(...))`
raises), modelled by the `none` result, instead of returning `(r0, [])`. -/
theorem run_empty_dist_none (g : Graph ν ε) (ω : ParametricAPI ε) (r0 : ℚ)
    (hf fuel : Nat) :
    MaxParametricSolver.run g ω ([] : List (ν × ℚ)) r0 hf fuel = none := rfl

end ClaimC9

section ClaimC10

variable {ν : Type} [DecidableEq ν] {ε : Type} [DecidableEq ε]

theorem fcWalkQ_eq_fcWalk (pt : PredMap ν ε) (vtx : ν) :
    ∀ (fuel : Nat) (utx : ν) (vis : List (ν × ν)),
      fcWalkQ pt vtx fuel utx vis = fcWalk pt vtx fuel utx ((utx, vtx) :: vis) := by
  intro fuel
  induction fuel with
  | zero => intro utx vis; rfl
  | succ f ih =>
    intro utx vis
    cases h1 : alookup pt utx with
    | none => simp only [fcWalkQ, fcWalk, h1]
    | some ue =>
      obtain ⟨u, e⟩ := ue
      cases h2 : alookup ((utx, vtx) :: vis) u with
      | some tag => simp only [fcWalkQ, fcWalk, h1, h2]
      | none =>
        simp only [fcWalkQ, fcWalk, h1, h2]
        exact ih u ((utx, vtx) :: vis)

theorem fcOuter_eq_fcOuterQ (pt : PredMap ν ε) (wf : Nat) :
    ∀ (vtxs : List ν) (vis : List (ν × ν)),
      fcOuter pt wf vtxs vis = fcOuterQ pt wf vtxs vis := by
  intro vtxs
  induction vtxs with
  | nil => intro vis; rfl
  | cons vtx rest ih =>
    intro vis
    simp only [fcOuter, fcOuterQ]
    by_cases hv : (alookup vis vtx).isSome
    · simp only [hv, if_pos, ih]
    · simp only [hv, if_neg, Bool.false_eq_true, ← fcWalkQ_eq_fcWalk]
      cases fcWalkQ pt vtx wf vtx vis with
      | none => rfl
      | some pr => simp only [ih]

/-- C10: on every digraph and every predecessor map, `find_cycle` of
`neg_cycle.NegCycleFinder` and `find_cycle(point_to)` of
`neg_cycle_q.NegCycleFinder` yield exactly the same sequence of
cycle-handle nodes. -/
theorem find_cycle_eq_q (g : Graph ν ε) (pt : PredMap ν ε) :
    find_cycle g pt = find_cycle_q g pt :=
  fcOuter_eq_fcOuterQ pt (pt.length + 1) (g.map Prod.fst) []

end ClaimC10

section RelaxLemmas

variable {ν : Type} [DecidableEq ν] {ε : Type} [DecidableEq ε]
variable {D : Type} [LinearOrderedAddCommGroup D]

theorem relaxEdge_of_lt {w : ε → D} {st : RState ν ε D} {u v : ν} {e : ε}
    (h : st.dist u + w e < st.dist v) :
    relaxEdge w st (u, v, e)
      = ⟨updF st.dist v (st.dist u + w e), (v, (u, e)) :: st.pred, true⟩ := by
  unfold relaxEdge
  simp only [if_pos h]

theorem relaxEdge_of_ge {w : ε → D} {st : RState ν ε D} {u v : ν} {e : ε}
    (h : st.dist v ≤ st.dist u + w e) :
    relaxEdge w st (u, v, e) = st := by
  unfold relaxEdge
  simp only [if_neg (not_lt.mpr h)]

/-- The nested loops of `relax` are one ordered traversal of `edgesOf g`. -/
theorem relax_eq_foldl (g : Graph ν ε) (w : ε → D) (d : ν → D) (p : PredMap ν ε) :
    relax g w d p = (edgesOf g).foldl (relaxEdge w) ⟨d, p, false⟩ := by
  unfold relax
  generalize (⟨d, p, false⟩ : RState ν ε D) = st
  induction g generalizing st with
  | nil => rfl
  | cons hd tl ih =>
    simp only [List.foldl_cons, edgesOf, List.flatMap_cons, List.foldl_append]
    rw [List.foldl_map]
    simpa only [edgesOf] using
      ih (List.foldl (fun st q => relaxEdge w st (hd.1, q.1, q.2)) st hd.2)

theorem relaxEdge_changed_mono {w : ε → D} {st : RState ν ε D} {t : ν × ν × ε}
    (h : st.changed = true) : (relaxEdge w st t).changed = true := by
  unfold relaxEdge
  split <;> simp [h]

theorem foldl_relaxEdge_changed_mono {w : ε → D} {st : RState ν ε D}
    (l : List (ν × ν × ε)) (h : st.changed = true) :
    (l.foldl (relaxEdge w) st).changed = true := by
  induction l generalizing st with
  | nil => exact h
  | cons t l ih => exact ih (relaxEdge_changed_mono h)

/-- `relax` reports `changed = True` exactly when some edge, at the moment it
was processed, satisfied the strict update condition. -/
theorem foldl_relaxEdge_changed_iff {w : ε → D} (l : List (ν × ν × ε)) (st : RState ν ε D) :
    (l.foldl (relaxEdge w) st).changed = true ↔
      st.changed = true ∨ ∃ l₁ t l₂, l = l₁ ++ t :: l₂ ∧
        (l₁.foldl (relaxEdge w) st).dist t.1 + w t.2.2 < (l₁.foldl (relaxEdge w) st).dist t.2.1 := by
  induction l generalizing st with
  | nil =>
    simp only [List.foldl_nil]
    constructor
    · intro h; exact Or.inl h
    · rintro (h | ⟨l₁, t, l₂, habs, _⟩)
      · exact h
      · exact absurd habs (by simp)
  | cons a l ih =>
    obtain ⟨u, v, e⟩ := a
    by_cases hc : st.dist u + w e < st.dist v
    · constructor
      · intro _
        exact Or.inr ⟨[], (u, v, e), l, rfl, hc⟩
      · intro _
        simp only [List.foldl_cons]
        apply foldl_relaxEdge_changed_mono
        rw [relaxEdge_of_lt hc]
    · have hre : relaxEdge w st (u, v, e) = st := relaxEdge_of_ge (not_lt.mp hc)
      simp only [List.foldl_cons, hre]
      rw [ih]
      constructor
      · rintro (h | ⟨l₁, t, l₂, hsplit, hlt⟩)
        · exact Or.inl h
        · exact Or.inr ⟨(u, v, e) :: l₁, t, l₂, by rw [hsplit, List.cons_append], by
            simpa only [List.foldl_cons, hre] using hlt⟩
      · rintro (h | ⟨l₁, t, l₂, hsplit, hlt⟩)
        · exact Or.inl h
        · cases l₁ with
          | nil =>
            simp only [List.nil_append, List.cons.injEq] at hsplit
            obtain ⟨rfl, rfl⟩ := hsplit
            simp only [List.foldl_nil] at hlt
            exact absurd hlt hc
          | cons b l₁ =>
            simp only [List.cons_append, List.cons.injEq] at hsplit
            obtain ⟨rfl, hsplit⟩ := hsplit
            exact Or.inr ⟨l₁, t, l₂, hsplit, by
              simpa only [List.foldl_cons, hre] using hlt⟩

end RelaxLemmas

section ClaimC6

variable {ν : Type} [DecidableEq ν] {ε : Type} [DecidableEq ε]
variable {D : Type} [LinearOrderedAddCommGroup D]

/-- C6: `relax` traverses every edge `(u, v, e)` exactly once (it is one
ordered fold over `edgesOf g`); processing an edge updates `dist[v]` to
`dist[u] + w(e)` and `pred[v]` to `(u, e)` exactly when
`dist[u] + w(e) < dist[v]` holds at that moment (so a tied edge updates
neither `dist` nor `pred`); and the returned flag is `True` iff at least
one update occurred. -/
theorem relax_spec (g : Graph ν ε) (w : ε → D) (d : ν → D) (p : PredMap ν ε) :
    (relax g w d p = (edgesOf g).foldl (relaxEdge w) ⟨d, p, false⟩)
    ∧ (∀ (st : RState ν ε D) (u v : ν) (e : ε), st.dist u + w e < st.dist v →
        relaxEdge w st (u, v, e)
          = ⟨updF st.dist v (st.dist u + w e), (v, (u, e)) :: st.pred, true⟩)
    ∧ (∀ (st : RState ν ε D) (u v : ν) (e : ε), st.dist v ≤ st.dist u + w e →
        relaxEdge w st (u, v, e) = st)
    ∧ ((relax g w d p).changed = true ↔ ∃ l₁ t l₂, edgesOf g = l₁ ++ t :: l₂ ∧
        (l₁.foldl (relaxEdge w) ⟨d, p, false⟩).dist t.1 + w t.2.2
          < (l₁.foldl (relaxEdge w) ⟨d, p, false⟩).dist t.2.1) := by
  refine ⟨relax_eq_foldl g w d p, fun st u v e h => relaxEdge_of_lt h,
    fun st u v e h => relaxEdge_of_ge h, ?_⟩
  rw [relax_eq_foldl g w d p, foldl_relaxEdge_changed_iff]
  simp

/-- Witness for `relax_spec`: a strict edge updates, a tied edge does not,
and on a one-edge improving graph `relax` reports a change. -/
theorem relax_spec_witness :
    (relaxEdge (fun e => e) ⟨(fun _ => (0 : Int)), [], false⟩ ((0 : Nat), 1, (-1 : Int))
      = ⟨updF (fun _ => (0 : Int)) 1 ((fun _ : Nat => (0 : Int)) 0 + (-1)),
          [(1, (0, -1))], true⟩)
    ∧ (relaxEdge (fun e => e) ⟨(fun _ => (0 : Int)), [], false⟩ ((0 : Nat), 1, (0 : Int))
      = ⟨(fun _ => (0 : Int)), [], false⟩)
    ∧ ((relax [((0 : Nat), [(1, (-1 : Int))])] (fun e => e) (fun _ => 0) []).changed = true) := by
  have h := relax_spec [((0 : Nat), [(1, (-1 : Int))])] (fun e => e) (fun _ => 0) []
  refine ⟨h.2.1 _ 0 1 (-1) (by norm_num), h.2.2.1 _ 0 1 0 (by norm_num), ?_⟩
  exact (h.2.2.2).mpr ⟨[], (0, 1, -1), [], by decide, by norm_num⟩

end ClaimC6

section RelaxEvents

variable {ν : Type} [DecidableEq ν] {ε : Type} [DecidableEq ε]
variable {D : Type} [LinearOrderedAddCommGroup D]

/-- An update event of one `relax` sweep: the updated node, the new distance
value written to `dist`, and the new `pred` entry. -/
abbrev REvent (ν ε D : Type) := ν × D × (ν × ε)

/-- `relaxEdge` instrumented to also record its update event. -/
def relaxEdgeE (w : ε → D) (p : RState ν ε D × List (REvent ν ε D)) (t : ν × ν × ε) :
    RState ν ε D × List (REvent ν ε D) :=
  if p.1.dist t.1 + w t.2.2 < p.1.dist t.2.1 then
    (relaxEdge w p.1 t, p.2 ++ [(t.2.1, p.1.dist t.1 + w t.2.2, (t.1, t.2.2))])
  else (p.1, p.2)

/-- The events recorded by processing `l` from state `st`. -/
def newEvents (w : ε → D) (l : List (ν × ν × ε)) (st : RState ν ε D) :
    List (REvent ν ε D) :=
  (l.foldl (relaxEdgeE w) (st, [])).2

/-- The update events applied by one `relax` sweep, in order. -/
def relaxEvents (g : Graph ν ε) (w : ε → D) (d : ν → D) (p : PredMap ν ε) :
    List (REvent ν ε D) :=
  newEvents w (edgesOf g) ⟨d, p, false⟩

/-- The events of the rest of the run for `v`, restricted to node `v`. -/
def evFor (v : ν) (evs : List (REvent ν ε D)) : List (REvent ν ε D) :=
  evs.filter (fun t => decide (t.1 = v))

theorem foldl_relaxEdgeE_norm (w : ε → D) (l : List (ν × ν × ε)) :
    ∀ (st : RState ν ε D) (evs : List (REvent ν ε D)),
      l.foldl (relaxEdgeE w) (st, evs)
        = (l.foldl (relaxEdge w) st, evs ++ newEvents w l st) := by
  induction l with
  | nil => intro st evs; simp only [List.foldl_nil, newEvents, List.append_nil]
  | cons t l ih =>
    intro st evs
    have hnewc : newEvents w (t :: l) st
        = (newEvents w [t] st) ++ newEvents w l (relaxEdge w st t) := by
      unfold newEvents
      rw [List.foldl_cons, List.foldl_cons, List.foldl_nil]
      by_cases hc : st.dist t.1 + w t.2.2 < st.dist t.2.1
      · have h2 : relaxEdgeE w (st, ([] : List (REvent ν ε D))) t
            = (relaxEdge w st t, [(t.2.1, st.dist t.1 + w t.2.2, (t.1, t.2.2))]) := by
          unfold relaxEdgeE
          simp only [if_pos hc, List.nil_append]
        rw [h2, ih]
        rfl
      · have hre : relaxEdge w st t = st := by
          unfold relaxEdge
          simp only [if_neg hc]
        have h2 : relaxEdgeE w (st, ([] : List (REvent ν ε D))) t = (st, []) := by
          unfold relaxEdgeE
          simp only [if_neg hc]
        rw [h2, hre, ih, List.nil_append]
        rfl
    by_cases hc : st.dist t.1 + w t.2.2 < st.dist t.2.1
    · have h1 : relaxEdgeE w (st, evs) t
          = (relaxEdge w st t, evs ++ [(t.2.1, st.dist t.1 + w t.2.2, (t.1, t.2.2))]) := by
        unfold relaxEdgeE
        simp only [if_pos hc]
      have h2 : newEvents w [t] st = [(t.2.1, st.dist t.1 + w t.2.2, (t.1, t.2.2))] := by
        unfold newEvents
        rw [List.foldl_cons, List.foldl_nil]
        unfold relaxEdgeE
        simp only [if_pos hc, List.nil_append]
      rw [List.foldl_cons, h1, ih, List.foldl_cons, hnewc, h2, List.append_assoc]
    · have hre : relaxEdge w st t = st := by
        unfold relaxEdge
        simp only [if_neg hc]
      have h1 : relaxEdgeE w (st, evs) t = (st, evs) := by
        unfold relaxEdgeE
        simp only [if_neg hc]
      have h2 : newEvents w [t] st = [] := by
        unfold newEvents
        rw [List.foldl_cons, List.foldl_nil]
        unfold relaxEdgeE
        simp only [if_neg hc]
      rw [List.foldl_cons, h1, ih, List.foldl_cons, hnewc, h2, hre, List.nil_append]

theorem getLastD_map_cons {α β : Type} (f : α → β) :
    ∀ (l : List α) (a : α) (d : β),
      (((a :: l).getLast?.map f).getD d) = ((l.getLast?.map f).getD (f a)) := by
  intro l
  induction l with
  | nil => intro a d; simp
  | cons b m ih =>
    intro a d
    rw [List.getLast?_cons_cons, ih b d, ih b (f a)]

/-- Characterisation of one sweep by its event trace: for every node `v`,
the final `dist[v]` is the value of the last update event at `v` (or the
initial value when there is none), the final `pred[v]` is that event's
predecessor entry (or the initial one), and the values of the update events
at `v` are strictly decreasing, below the initial value. -/
theorem relax_events_char (w : ε → D) (l : List (ν × ν × ε)) :
    ∀ (st : RState ν ε D) (v : ν),
      ((l.foldl (relaxEdge w) st).dist v
          = (((evFor v (newEvents w l st)).getLast?.map (fun t => t.2.1)).getD (st.dist v)))
      ∧ (alookup (l.foldl (relaxEdge w) st).pred v
          = (((evFor v (newEvents w l st)).getLast?.map (fun t => some t.2.2)).getD
              (alookup st.pred v)))
      ∧ List.Chain' (fun a b => b < a)
          (st.dist v :: (evFor v (newEvents w l st)).map (fun t => t.2.1)) := by
  induction l with
  | nil => intro st v; simp [newEvents, evFor]
  | cons t l ih =>
    intro st v
    obtain ⟨u, v', e⟩ := t
    by_cases hc : st.dist u + w e < st.dist v'
    · have hnew : newEvents w ((u, v', e) :: l) st
          = (v', st.dist u + w e, (u, e)) :: newEvents w l (relaxEdge w st (u, v', e)) := by
        unfold newEvents
        rw [List.foldl_cons]
        have : relaxEdgeE w (st, ([] : List (REvent ν ε D))) (u, v', e)
            = (relaxEdge w st (u, v', e), [(v', st.dist u + w e, (u, e))]) := by
          unfold relaxEdgeE
          simp only [if_pos hc, List.nil_append]
        rw [this, foldl_relaxEdgeE_norm]
        rfl
      have hst1 := relaxEdge_of_lt hc
      have hfold : ((u, v', e) :: l).foldl (relaxEdge w) st
          = l.foldl (relaxEdge w) (relaxEdge w st (u, v', e)) := by
        rw [List.foldl_cons]
      by_cases hv : v = v'
      · subst hv
        have hd1 : (relaxEdge w st (u, v, e)).dist v = st.dist u + w e := by
          rw [hst1]; simp [updF]
        have hp1 : alookup (relaxEdge w st (u, v, e)).pred v = some (u, e) := by
          rw [hst1]; simp [alookup_cons]
        have hfil : evFor v (newEvents w ((u, v, e) :: l) st)
            = (v, st.dist u + w e, (u, e)) :: evFor v (newEvents w l (relaxEdge w st (u, v, e))) := by
          rw [hnew]
          unfold evFor
          simp
        obtain ⟨ihd, ihp, ihc⟩ := ih (relaxEdge w st (u, v, e)) v
        refine ⟨?_, ?_, ?_⟩
        · rw [hfold, hfil, ihd, getLastD_map_cons, hd1]
        · rw [hfold, hfil, ihp, getLastD_map_cons, hp1]
        · rw [hfil]
          simp only [List.map_cons]
          rw [List.chain'_cons]
          constructor
          · exact hc
          · rw [← hd1]
            exact ihc
      · have hd1 : (relaxEdge w st (u, v', e)).dist v = st.dist v := by
          rw [hst1]; simp [updF, hv]
        have hp1 : alookup (relaxEdge w st (u, v', e)).pred v = alookup st.pred v := by
          rw [hst1]; simp [alookup_cons, hv]
        have hfil : evFor v (newEvents w ((u, v', e) :: l) st)
            = evFor v (newEvents w l (relaxEdge w st (u, v', e))) := by
          rw [hnew]
          unfold evFor
          simp [Ne.symm hv, hv]
        obtain ⟨ihd, ihp, ihc⟩ := ih (relaxEdge w st (u, v', e)) v
        refine ⟨?_, ?_, ?_⟩
        · rw [hfold, hfil, ihd, hd1]
        · rw [hfold, hfil, ihp, hp1]
        · rw [hfil, ← hd1]
          exact ihc
    · have hre : relaxEdge w st (u, v', e) = st := relaxEdge_of_ge (not_lt.mp hc)
      have hnew : newEvents w ((u, v', e) :: l) st = newEvents w l st := by
        unfold newEvents
        rw [List.foldl_cons]
        have : relaxEdgeE w (st, ([] : List (REvent ν ε D))) (u, v', e) = (st, []) := by
          unfold relaxEdgeE
          simp only [if_neg hc]
        rw [this]
      have hfold : ((u, v', e) :: l).foldl (relaxEdge w) st = l.foldl (relaxEdge w) st := by
        rw [List.foldl_cons, hre]
      rw [hfold, hnew]
      exact ih st v

end RelaxEvents

section ClaimC8

variable {ν : Type} [DecidableEq ν] {ε : Type} [DecidableEq ε]
variable {D : Type} [LinearOrderedAddCommGroup D]

/-- In a list whose `f`-values are strictly decreasing, the last element has
the strictly smallest `f`-value. -/
theorem pairwise_last_lt {α : Type} (f : α → D) :
    ∀ (L : List α) (h : L ≠ []), L.Pairwise (fun a b => f b < f a) →
      ∀ x ∈ L, x ≠ L.getLast h → f (L.getLast h) < f x := by
  intro L
  induction L with
  | nil => intro h; exact absurd rfl h
  | cons a L ih =>
    intro h hp x hx hne
    cases L with
    | nil =>
      rcases List.mem_singleton.mp hx with rfl
      exact absurd rfl hne
    | cons b M =>
      have hBM : b :: M ≠ [] := List.cons_ne_nil b M
      have hlast : (a :: b :: M).getLast h = (b :: M).getLast hBM :=
        List.getLast_cons hBM
      rcases List.mem_cons.mp hx with rfl | hx'
      · rw [hlast]
        exact (List.pairwise_cons.mp hp).1 ((b :: M).getLast hBM) (List.getLast_mem hBM)
      · rw [hlast]
        refine ih hBM (List.pairwise_cons.mp hp).2 x hx' ?_
        rw [← hlast]
        exact hne

/-- The strictly decreasing value chain of `relax_events_char`, restricted to
the recorded events (dropping the initial value), gives tuple-level pairwise
strict decrease. -/
theorem events_pairwise_of_chain {L : List (REvent ν ε D)} {d0 : D}
    (hc : List.Chain' (fun a b => b < a) (d0 :: L.map (fun t => t.2.1))) :
    L.Pairwise (fun a b => b.2.1 < a.2.1) := by
  have h1 : List.Chain' (fun a b => b < a) (L.map (fun t => t.2.1)) := hc.tail
  have h2 : List.Chain' (fun a b => b.2.1 < a.2.1) L := (List.chain'_map _).mp h1
  have : IsTrans (REvent ν ε D) (fun a b => b.2.1 < a.2.1) :=
    ⟨fun a b c hab hbc => lt_trans hbc hab⟩
  exact List.chain'_iff_pairwise.mp h2

/-- The last event of a strictly decreasing event list is its unique
value-minimal element; this characterisation only mentions membership, so it
is stable under permutation. -/
theorem getLast_eq_of_perm {L₁ L₂ : List (REvent ν ε D)}
    (hperm : L₁.Perm L₂) (h₁ : L₁ ≠ []) (h₂ : L₂ ≠ [])
    (hp₁ : L₁.Pairwise (fun a b => b.2.1 < a.2.1))
    (hp₂ : L₂.Pairwise (fun a b => b.2.1 < a.2.1)) :
    L₁.getLast h₁ = L₂.getLast h₂ := by
  by_contra hne
  have ht₁ : L₁.getLast h₁ ∈ L₂ := hperm.mem_iff.mp (List.getLast_mem h₁)
  have ht₂ : L₂.getLast h₂ ∈ L₁ := hperm.mem_iff.mpr (List.getLast_mem h₂)
  have hlt₁ : (L₁.getLast h₁).2.1 < (L₂.getLast h₂).2.1 :=
    pairwise_last_lt (fun t => t.2.1) L₁ h₁ hp₁ (L₂.getLast h₂) ht₂ (fun hh => hne hh.symm)
  have hlt₂ : (L₂.getLast h₂).2.1 < (L₁.getLast h₁).2.1 :=
    pairwise_last_lt (fun t => t.2.1) L₂ h₂ hp₂ (L₁.getLast h₁) ht₁ hne
  exact absurd (lt_trans hlt₁ hlt₂) (lt_irrefl _)

/-- C8 (amended): for a single relaxation pass, the final `dist` and `pred`
are determined by the set of update events the pass applies — two runs whose
event traces are permutations of each other end in the same `dist` and the
same `pred` entries (the applied updates at a node have pairwise distinct,
strictly decreasing values, so the value-minimal update wins); and an edge
offering a tied value never updates (the first writer wins a tie).  The edge
processing order can, however, change the event set itself
(`relax_order_dependent`). -/
theorem relax_events_determine (g₁ g₂ : Graph ν ε) (w : ε → D) (d : ν → D)
    (p : PredMap ν ε)
    (hperm : (relaxEvents g₁ w d p).Perm (relaxEvents g₂ w d p)) :
    (∀ v : ν, (relax g₁ w d p).dist v = (relax g₂ w d p).dist v
      ∧ alookup (relax g₁ w d p).pred v = alookup (relax g₂ w d p).pred v)
    ∧ (∀ (st : RState ν ε D) (u v : ν) (e : ε), st.dist u + w e = st.dist v →
        relaxEdge w st (u, v, e) = st) := by
  constructor
  · intro v
    have hpf : (evFor v (relaxEvents g₁ w d p)).Perm (evFor v (relaxEvents g₂ w d p)) :=
      hperm.filter _
    obtain ⟨hd₁, hp₁, hc₁⟩ := relax_events_char w (edgesOf g₁) ⟨d, p, false⟩ v
    obtain ⟨hd₂, hp₂, hc₂⟩ := relax_events_char w (edgesOf g₂) ⟨d, p, false⟩ v
    have e₁ : relax g₁ w d p = (edgesOf g₁).foldl (relaxEdge w) ⟨d, p, false⟩ :=
      relax_eq_foldl g₁ w d p
    have e₂ : relax g₂ w d p = (edgesOf g₂).foldl (relaxEdge w) ⟨d, p, false⟩ :=
      relax_eq_foldl g₂ w d p
    rw [e₁, e₂, hd₁, hd₂, hp₁, hp₂]
    rcases eq_or_ne (evFor v (relaxEvents g₁ w d p)) [] with hnil | hnn
    · have hnil₂ : evFor v (relaxEvents g₂ w d p) = [] := by
        rw [hnil] at hpf
        exact hpf.symm.eq_nil
      have hnil' : evFor v (newEvents w (edgesOf g₁) ⟨d, p, false⟩) = [] := hnil
      have hnil₂' : evFor v (newEvents w (edgesOf g₂) ⟨d, p, false⟩) = [] := hnil₂
      rw [hnil', hnil₂']
      exact ⟨rfl, rfl⟩
    · have hnn₂ : evFor v (relaxEvents g₂ w d p) ≠ [] := by
        intro hx
        rw [hx] at hpf
        exact hnn hpf.eq_nil
      have hlast : (evFor v (relaxEvents g₁ w d p)).getLast hnn
          = (evFor v (relaxEvents g₂ w d p)).getLast hnn₂ :=
        getLast_eq_of_perm hpf hnn hnn₂ (events_pairwise_of_chain hc₁)
          (events_pairwise_of_chain hc₂)
      have hs₁ : (evFor v (newEvents w (edgesOf g₁) ⟨d, p, false⟩)).getLast?
          = some ((evFor v (relaxEvents g₁ w d p)).getLast hnn) :=
        List.getLast?_eq_getLast_of_ne_nil hnn
      have hs₂ : (evFor v (newEvents w (edgesOf g₂) ⟨d, p, false⟩)).getLast?
          = some ((evFor v (relaxEvents g₂ w d p)).getLast hnn₂) :=
        List.getLast?_eq_getLast_of_ne_nil hnn₂
      rw [hs₁, hs₂, hlast]
      exact ⟨rfl, rfl⟩
  · intro st u v e h
    exact relaxEdge_of_ge (le_of_eq h.symm)

/-- Graphs for the C8 counterexample and witness. -/
def cgA : Graph Nat Nat := [(0, [(1, 1)]), (1, [(2, 2)])]

def cgB : Graph Nat Nat := [(1, [(2, 2)]), (0, [(1, 1)])]

def cdA : Nat → Int := fun v => if v = 0 then 0 else 10

/-- Counterexample to C8 as stated: the graphs `cgA` and `cgB` carry the same
edge set (a permutation), every edge weighs `0`, node `2` has a single
incoming edge (so the equal-minima tie rule is not involved), yet the two
single passes end with different `dist[2]`: an update made earlier in the
pass feeds later edges. -/
theorem relax_order_dependent :
    (edgesOf cgA).Perm (edgesOf cgB)
    ∧ ((edgesOf cgA).filter (fun t => t.2.1 = 2)).length = 1
    ∧ (relax cgA (fun _ => (0 : Int)) cdA []).dist 2 = 0
    ∧ (relax cgB (fun _ => (0 : Int)) cdA []).dist 2 = 10 := by
  refine ⟨?_, by decide, by decide, by decide⟩
  decide

/-- Witness graphs with order-independent event traces: two updates on
disjoint node pairs, processed in either order. -/
def cgE1 : Graph Nat Int := [(0, [(1, -1)]), (2, [(3, -2)])]

def cgE2 : Graph Nat Int := [(2, [(3, -2)]), (0, [(1, -1)])]

/-- Witness for `relax_events_determine`: the two traces are permutations of
each other, hence final `dist` and `pred` agree; a tied edge does not update. -/
theorem relax_events_determine_witness :
    ((relax cgE1 (fun e => e) (fun _ => (0 : Int)) []).dist 1
        = (relax cgE2 (fun e => e) (fun _ => (0 : Int)) []).dist 1
      ∧ alookup (relax cgE1 (fun e => e) (fun _ => (0 : Int)) []).pred 1
        = alookup (relax cgE2 (fun e => e) (fun _ => (0 : Int)) []).pred 1)
    ∧ relaxEdge (fun e => e) ⟨(fun _ => (0 : Int)), [], false⟩ ((0 : Nat), 1, 0)
        = ⟨(fun _ => (0 : Int)), [], false⟩ := by
  have h := relax_events_determine cgE1 cgE2 (fun e => e) (fun _ => (0 : Int)) [] (by decide)
  exact ⟨h.1 1, h.2 _ 0 1 0 (by decide)⟩

end ClaimC8

section ClaimC3

variable {ν : Type} [DecidableEq ν] {ε : Type} [DecidableEq ε]

theorem foldl_updMin_cases (ω : ParametricAPI ε) :
    ∀ (ys : List (List ε)) (rc : ℚ × List ε),
      ys.foldl (updMin ω) rc = rc
        ∨ ω.zero_cancel (ys.foldl (updMin ω) rc).2 = (ys.foldl (updMin ω) rc).1 := by
  intro ys
  induction ys with
  | nil => intro rc; exact Or.inl rfl
  | cons c ys ih =>
    intro rc
    rw [List.foldl_cons]
    by_cases hlt : ω.zero_cancel c < rc.1
    · have hstep : updMin ω rc c = (ω.zero_cancel c, c) := by
        unfold updMin
        simp only [if_pos hlt]
      rw [hstep]
      rcases ih (ω.zero_cancel c, c) with heq | hz
      · rw [heq]
        exact Or.inr rfl
      · exact Or.inr hz
    · have hstep : updMin ω rc c = rc := by
        unfold updMin
        simp only [if_neg hlt]
      rw [hstep]
      exact ih rc

theorem foldl_updMin_of_ge (ω : ParametricAPI ε) :
    ∀ (ys : List (List ε)) (r0 : ℚ) (c0 : List ε),
      (∀ c ∈ ys, r0 ≤ ω.zero_cancel c) → ys.foldl (updMin ω) (r0, c0) = (r0, c0) := by
  intro ys
  induction ys with
  | nil => intro r0 c0 _; rfl
  | cons c ys ih =>
    intro r0 c0 hge
    rw [List.foldl_cons]
    have hstep : updMin ω (r0, c0) c = (r0, c0) := by
      unfold updMin
      simp only [if_neg (not_lt.mpr (hge c (List.mem_cons_self c ys)))]
    rw [hstep]
    exact ih r0 c0 (fun x hx => hge x (List.mem_cons_of_mem c hx))

/-- Loop invariant of `MaxParametricSolver.run`: entering an iteration with
`r_min = ratio` and `c_min = cycle` where either the state is still the
initial one or `cycle` is a cycle achieving `ratio` (with `ratio` already
improved below `r0`), a completed loop returns either the unchanged initial
pair or a ratio achieved by the returned cycle, strictly below `r0`. -/
theorem runLoop_inv (g : Graph ν ε) (ω : ParametricAPI ε) (hf : Nat) (r0 : ℚ) :
    ∀ (fuel : Nat) (dist : ν → ℚ) (ratio : ℚ) (cycle : List ε),
      ((ratio = r0 ∧ cycle = []) ∨ (ω.zero_cancel cycle = ratio ∧ ratio < r0)) →
      (runLoop g ω hf fuel dist ratio ratio cycle cycle).2 = true →
      ((runLoop g ω hf fuel dist ratio ratio cycle cycle).1.1 = r0
          ∧ (runLoop g ω hf fuel dist ratio ratio cycle cycle).1.2 = [])
        ∨ (ω.zero_cancel (runLoop g ω hf fuel dist ratio ratio cycle cycle).1.2
            = (runLoop g ω hf fuel dist ratio ratio cycle cycle).1.1
          ∧ (runLoop g ω hf fuel dist ratio ratio cycle cycle).1.1 < r0) := by
  intro fuel
  induction fuel with
  | zero =>
    intro dist ratio cycle hP hdone
    exact absurd hdone (by simp [runLoop])
  | succ fuel ih =>
    intro dist ratio cycle hP hdone
    by_cases hbr : ratio ≤
        ((howard g (fun e => ω.distance ratio e) dist hf).1.foldl (updMin ω) (ratio, cycle)).1
    · simp only [runLoop, if_pos hbr]
      rcases hP with ⟨hr, hc⟩ | ⟨hz, hlt⟩
      · exact Or.inl ⟨hr, hc⟩
      · exact Or.inr ⟨hz, hlt⟩
    · simp only [runLoop, if_neg hbr] at hdone ⊢
      rcases foldl_updMin_cases ω (howard g (fun e => ω.distance ratio e) dist hf).1
          (ratio, cycle) with heq | hz
      · rw [heq] at hbr
        exact absurd (le_refl ratio) hbr
      · have hlt : ((howard g (fun e => ω.distance ratio e) dist hf).1.foldl
            (updMin ω) (ratio, cycle)).1 < ratio := not_le.mp hbr
        have hlt0 : ((howard g (fun e => ω.distance ratio e) dist hf).1.foldl
            (updMin ω) (ratio, cycle)).1 < r0 := by
          rcases hP with ⟨hr, _⟩ | ⟨_, hr⟩
          · rw [← hr]; exact hlt
          · exact lt_trans hlt hr
        exact ih _ _ _ (Or.inr ⟨hz, hlt0⟩) hdone

/-- C3: in `MaxParametricSolver.run`, (1) a nonempty `dist` enters the loop;
(2) each outer iteration recomputes the best candidate `rc` over the cycles
howard yields and terminates exactly when `rc.1 ≥ ratio`, returning the
current `(ratio, cycle)`; (3) otherwise the driving ratio strictly decreases
(the new ratio `rc.1 < ratio`); (4) when no improving cycle is found in the
first round the initial ratio and the empty cycle are returned; (5) a
completed run returns either `(r0, [])` or a strictly improved ratio
achieved by the returned cycle. -/
theorem max_parametric_run_spec (g : Graph ν ε) (ω : ParametricAPI ε) (hf : Nat) :
    (∀ (dl : List (ν × ℚ)) (r0 : ℚ) (fuel : Nat), dl ≠ [] →
        MaxParametricSolver.run g ω dl r0 hf fuel
          = some (runLoop g ω hf fuel (fun v => (alookup dl v).getD 0) r0 r0 [] []))
    ∧ (∀ (fuel : Nat) (dist : ν → ℚ) (ratio r_min : ℚ) (c_min cycle : List ε),
        runLoop g ω hf (fuel + 1) dist ratio r_min c_min cycle
          = (if ratio ≤ ((howard g (fun e => ω.distance ratio e) dist hf).1.foldl
                (updMin ω) (r_min, c_min)).1
             then ((ratio, cycle), true)
             else runLoop g ω hf fuel
               (howard g (fun e => ω.distance ratio e) dist hf).2.1.dist
               ((howard g (fun e => ω.distance ratio e) dist hf).1.foldl
                  (updMin ω) (r_min, c_min)).1
               ((howard g (fun e => ω.distance ratio e) dist hf).1.foldl
                  (updMin ω) (r_min, c_min)).1
               ((howard g (fun e => ω.distance ratio e) dist hf).1.foldl
                  (updMin ω) (r_min, c_min)).2
               ((howard g (fun e => ω.distance ratio e) dist hf).1.foldl
                  (updMin ω) (r_min, c_min)).2))
    ∧ (∀ (ys : List (List ε)) (ratio r_min : ℚ) (c_min : List ε),
        ¬ ratio ≤ (ys.foldl (updMin ω) (r_min, c_min)).1 →
          (ys.foldl (updMin ω) (r_min, c_min)).1 < ratio)
    ∧ (∀ (fuel : Nat) (dist : ν → ℚ) (ratio : ℚ),
        (∀ c ∈ (howard g (fun e => ω.distance ratio e) dist hf).1,
            ratio ≤ ω.zero_cancel c) →
          runLoop g ω hf (fuel + 1) dist ratio ratio [] [] = ((ratio, []), true))
    ∧ (∀ (fuel : Nat) (dist : ν → ℚ) (r0 : ℚ),
        (runLoop g ω hf fuel dist r0 r0 [] []).2 = true →
          ((runLoop g ω hf fuel dist r0 r0 [] []).1.1 = r0
              ∧ (runLoop g ω hf fuel dist r0 r0 [] []).1.2 = [])
            ∨ (ω.zero_cancel (runLoop g ω hf fuel dist r0 r0 [] []).1.2
                = (runLoop g ω hf fuel dist r0 r0 [] []).1.1
              ∧ (runLoop g ω hf fuel dist r0 r0 [] []).1.1 < r0)) := by
  refine ⟨?_, ?_, ?_, ?_, ?_⟩
  · intro dl r0 fuel hne
    cases dl with
    | nil => exact absurd rfl hne
    | cons a dl => rfl
  · intro fuel dist ratio r_min c_min cycle
    rfl
  · intro ys ratio r_min c_min h
    exact not_le.mp h
  · intro fuel dist ratio hge
    have hfold : (howard g (fun e => ω.distance ratio e) dist hf).1.foldl
        (updMin ω) (ratio, []) = (ratio, []) :=
      foldl_updMin_of_ge ω _ ratio [] hge
    simp only [runLoop, hfold, le_refl, if_pos]
  · intro fuel dist r0 hdone
    exact runLoop_inv g ω hf r0 fuel dist r0 [] (Or.inl ⟨rfl, rfl⟩) hdone

/-- A trivial concrete oracle for the witness. -/
def apiZ : ParametricAPI Int := ⟨fun _ _ => 0, fun _ => 0⟩

/-- Witness for `max_parametric_run_spec` on the empty graph: the wrapper
enters the loop for a nonempty `dist`, and a round without improving cycles
returns the initial ratio and the empty cycle. -/
theorem max_parametric_run_spec_witness :
    (MaxParametricSolver.run ([] : Graph Nat Int) apiZ [((0 : Nat), (0 : ℚ))] 1 1 1
        = some (runLoop [] apiZ 1 1 (fun v => (alookup [((0 : Nat), (0 : ℚ))] v).getD 0) 1 1 [] []))
    ∧ runLoop ([] : Graph Nat Int) apiZ 1 (0 + 1) (fun _ => 0) 1 1 [] [] = ((1, []), true) := by
  have h := max_parametric_run_spec ([] : Graph Nat Int) apiZ 1
  exact ⟨h.1 [((0 : Nat), (0 : ℚ))] 1 1 (by decide),
    h.2.2.2.1 0 (fun _ => 0) 1 (by decide)⟩

end ClaimC3

section PChainDefs

variable {ν : Type} [DecidableEq ν] {ε : Type} [DecidableEq ε]
variable {D : Type} [LinearOrderedAddCommGroup D]

/-- A walk in the policy graph: starting at `v`, repeatedly follow `pred`,
collecting the traversed edge payloads, ending at `t`. -/
inductive PChain (pt : PredMap ν ε) : ν → List ε → ν → Prop where
  | refl (v : ν) : PChain pt v [] v
  | step {v u t : ν} {e : ε} {es : List ε} :
      alookup pt v = some (u, e) → PChain pt u es t → PChain pt v (e :: es) t

/-- A policy walk that never performs a lookup at the node `bad`
(the walk may still end at `bad`). -/
inductive PChainA (pt : PredMap ν ε) (bad : ν) : ν → List ε → ν → Prop where
  | refl (v : ν) : PChainA pt bad v [] v
  | step {v u t : ν} {e : ε} {es : List ε} :
      v ≠ bad → alookup pt v = some (u, e) → PChainA pt bad u es t →
      PChainA pt bad v (e :: es) t

theorem PChainA.toPChain {pt : PredMap ν ε} {bad x t : ν} {es : List ε}
    (h : PChainA pt bad x es t) : PChain pt x es t := by
  induction h with
  | refl v => exact PChain.refl v
  | step hne hl _ ih => exact PChain.step hl ih

theorem pchain_append {pt : PredMap ν ε} {x m t : ν} {a b : List ε}
    (h1 : PChain pt x a m) (h2 : PChain pt m b t) : PChain pt x (a ++ b) t := by
  induction h1 with
  | refl v => exact h2
  | step hl _ ih => exact PChain.step hl (ih h2)

theorem pchain_snoc {pt : PredMap ν ε} {x t u : ν} {es : List ε} {e : ε}
    (h : PChain pt x es t) (hl : alookup pt t = some (u, e)) :
    PChain pt x (es ++ [e]) u :=
  pchain_append h (PChain.step hl (PChain.refl u))

theorem pchain_split {pt : PredMap ν ε} {t : ν} {b : List ε} :
    ∀ {a : List ε} {x : ν}, PChain pt x (a ++ b) t →
      ∃ m, PChain pt x a m ∧ PChain pt m b t := by
  intro a
  induction a with
  | nil => intro x h; exact ⟨x, PChain.refl x, h⟩
  | cons e a ih =>
    intro x h
    cases h with
    | step hl htail =>
      obtain ⟨m, hm1, hm2⟩ := ih htail
      exact ⟨m, PChain.step hl hm1, hm2⟩

theorem pchain_det {pt : PredMap ν ε} :
    ∀ {es : List ε} {x m m' : ν}, PChain pt x es m → PChain pt x es m' → m = m' := by
  intro es
  induction es with
  | nil =>
    intro x m m' h1 h2
    cases h1
    cases h2
    rfl
  | cons e es ih =>
    intro x m m' h1 h2
    cases h1 with
    | step hl1 ht1 =>
      cases h2 with
      | step hl2 ht2 =>
        rw [hl1] at hl2
        cases hl2
        exact ih ht1 ht2

theorem pchainA_transfer {p1 p2 : PredMap ν ε} {bad : ν}
    (hagree : ∀ y, y ≠ bad → alookup p1 y = alookup p2 y) :
    ∀ {x t : ν} {es : List ε}, PChainA p1 bad x es t → PChainA p2 bad x es t := by
  intro x t es h
  induction h with
  | refl v => exact PChainA.refl v
  | step hne hl _ ih => exact PChainA.step hne ((hagree _ hne).symm.trans hl) ih

theorem pchain_avoid_or_split (bad : ν) {pt : PredMap ν ε} :
    ∀ {x t : ν} {es : List ε}, PChain pt x es t →
      PChainA pt bad x es t
        ∨ ∃ a b, es = a ++ b ∧ PChainA pt bad x a bad ∧ PChain pt bad b t ∧ b ≠ [] := by
  intro x t es h
  induction h with
  | refl v => exact Or.inl (PChainA.refl v)
  | @step v u t' e es' hl htail ih =>
    by_cases hv : v = bad
    · subst hv
      exact Or.inr ⟨[], e :: es', rfl, PChainA.refl v, PChain.step hl htail, List.cons_ne_nil e es'⟩
    · rcases ih with ha | ⟨a, b, rfl, hA, hB, hbne⟩
      · exact Or.inl (PChainA.step hv hl ha)
      · exact Or.inr ⟨e :: a, b, rfl, PChainA.step hv hl hA, hB, hbne⟩

theorem pchain_telescope {pt : PredMap ν ε} {w : ε → D} {dist : ν → D}
    (hub : ∀ v u e, alookup pt v = some (u, e) → dist u + w e ≤ dist v) :
    ∀ {x t : ν} {es : List ε}, PChain pt x es t →
      dist t + (es.map w).sum ≤ dist x := by
  intro x t es h
  induction h with
  | refl v => simp
  | @step v u t' e es' hl _ ih =>
    have h1 : dist u + w e ≤ dist v := hub _ _ _ hl
    calc dist t' + ((e :: es').map w).sum
        = (dist t' + (es'.map w).sum) + w e := by
          simp only [List.map_cons, List.sum_cons]
          rw [add_comm (w e) ((es'.map w).sum), ← add_assoc]
      _ ≤ dist u + w e := add_le_add_right ih (w e)
      _ ≤ dist v := h1

end PChainDefs

section NCInvariant

variable {ν : Type} [DecidableEq ν] {ε : Type} [DecidableEq ε]
variable {D : Type} [LinearOrderedAddCommGroup D]

/-- The inductive invariant of Howard's relaxation: every `pred` entry is a
genuine graph edge, every `pred` entry satisfies `dist[u] + w(e) ≤ dist[v]`
(the update made it equal and `dist[u]` can only have decreased since), and
every cycle of the policy graph has strictly negative total weight. -/
structure NCInv (g : Graph ν ε) (w : ε → D) (dist : ν → D) (pt : PredMap ν ε) : Prop where
  edges : ∀ v u e, alookup pt v = some (u, e) → (u, v, e) ∈ edgesOf g
  lb : ∀ v u e, alookup pt v = some (u, e) → dist u + w e ≤ dist v
  negCyc : ∀ v es, PChain pt v es v → es ≠ [] → ((es.map w).sum) < 0

theorem ncinv_initial (g : Graph ν ε) (w : ε → D) (d : ν → D) :
    NCInv g w d ([] : PredMap ν ε) := by
  refine ⟨?_, ?_, ?_⟩
  · intro v u e h
    exact absurd h (by simp [alookup])
  · intro v u e h
    exact absurd h (by simp [alookup])
  · intro v es h hne
    cases h with
    | refl => exact absurd rfl hne
    | step hl _ => exact absurd hl (by simp [alookup])

/-- Any cycle through the freshly updated node `v` in the updated policy map
is strictly negative.  (`pt' = (v, (u, e)) :: pt` after an update along the
edge `(u, v, e)` with `dist u + w e < dist v`.) -/
theorem ncinv_newcycle {g : Graph ν ε} {w : ε → D} {dist : ν → D} {pt : PredMap ν ε}
    (hInv : NCInv g w dist pt) {u v : ν} {e : ε}
    (hcond : dist u + w e < dist v) :
    ∀ (n : Nat) (es : List ε), es.length ≤ n →
      PChain ((v, (u, e)) :: pt) v es v → es ≠ [] → ((es.map w).sum) < 0 := by
  intro n
  induction n with
  | zero =>
    intro es hlen hch hne
    rw [List.length_eq_zero.mp (Nat.le_zero.mp hlen)] at hne
    exact absurd rfl hne
  | succ n ih =>
    intro es hlen hch hne
    cases hch with
    | refl => exact absurd rfl hne
    | @step _ q _ e₀ rest hl htail =>
      have hlv : alookup ((v, (u, e)) :: pt) v = some (u, e) := by
        simp [alookup_cons]
      rw [hlv] at hl
      cases hl
      rcases pchain_avoid_or_split v htail with ha | ⟨a, b, rfl, hA, hB, hbne⟩
      · have hagree : ∀ y, y ≠ v → alookup ((v, (u, e)) :: pt) y = alookup pt y := by
          intro y hy
          simp [alookup_cons, hy]
        have hold : PChain pt u rest v :=
          (pchainA_transfer hagree ha).toPChain
        have htel : dist v + (rest.map w).sum ≤ dist u :=
          pchain_telescope hInv.lb hold
        have : dist v + (w e + (rest.map w).sum) < dist v := by
          calc dist v + (w e + (rest.map w).sum)
              = (dist v + (rest.map w).sum) + w e := by
                rw [add_comm (w e) ((rest.map w).sum), ← add_assoc]
            _ ≤ dist u + w e := add_le_add_right htel (w e)
            _ < dist v := hcond
        have hfin : w e + (rest.map w).sum < 0 := by
          have := add_lt_add_left this (-(dist v))
          simpa [← add_assoc] using this
        simpa using hfin
      · have h1 : PChain ((v, (u, e)) :: pt) v (e :: a) v :=
          PChain.step hlv hA.toPChain
        have hlen1 : (e :: a).length ≤ n := by
          have hb1 : 1 ≤ b.length := Nat.one_le_iff_ne_zero.mpr
            (fun h0 => hbne (List.length_eq_zero.mp h0))
          have : (e :: (a ++ b)).length ≤ n + 1 := hlen
          simp only [List.length_cons, List.length_append] at this ⊢
          omega
        have hs1 : (((e :: a).map w).sum) < 0 :=
          ih (e :: a) hlen1 h1 (List.cons_ne_nil e a)
        have hlen2 : b.length ≤ n := by
          have : (e :: (a ++ b)).length ≤ n + 1 := hlen
          simp only [List.length_cons, List.length_append] at this
          omega
        have hs2 : ((b.map w).sum) < 0 := ih b hlen2 hB hbne
        have hsum : (((e :: (a ++ b)).map w).sum) = (((e :: a).map w).sum) + ((b.map w).sum) := by
          simp [add_assoc]
        rw [hsum]
        exact add_neg hs1 hs2

/-- The invariant is preserved by processing a single graph edge. -/
theorem ncinv_relaxEdge {g : Graph ν ε} {w : ε → D} {st : RState ν ε D}
    (hInv : NCInv g w st.dist st.pred) {t : ν × ν × ε} (hmem : t ∈ edgesOf g) :
    NCInv g w (relaxEdge w st t).dist (relaxEdge w st t).pred := by
  obtain ⟨u, v, e⟩ := t
  by_cases hcond : st.dist u + w e < st.dist v
  · rw [relaxEdge_of_lt hcond]
    have hupdv : updF st.dist v (st.dist u + w e) v = st.dist u + w e := by
      simp [updF]
    have hupd_le : ∀ y, updF st.dist v (st.dist u + w e) y ≤ st.dist y := by
      intro y
      by_cases hy : y = v
      · subst hy
        rw [hupdv]
        exact le_of_lt hcond
      · simp [updF, hy]
    refine ⟨?_, ?_, ?_⟩
    · intro x y f hx
      dsimp only at hx
      rw [alookup_cons] at hx
      by_cases hxv : x = v
      · rw [if_pos hxv] at hx
        cases hx
        rw [hxv]
        exact hmem
      · rw [if_neg hxv] at hx
        exact hInv.edges x y f hx
    · intro x y f hx
      dsimp only at hx ⊢
      rw [alookup_cons] at hx
      by_cases hxv : x = v
      · rw [if_pos hxv] at hx
        cases hx
        subst hxv
        rw [hupdv]
        calc updF st.dist x (st.dist u + w e) u + w e
            ≤ st.dist u + w e := add_le_add_right (hupd_le u) (w e)
          _ ≤ st.dist u + w e := le_refl _
      · rw [if_neg hxv] at hx
        have hdx : updF st.dist v (st.dist u + w e) x = st.dist x := by
          simp [updF, hxv]
        rw [hdx]
        calc updF st.dist v (st.dist u + w e) y + w f
            ≤ st.dist y + w f := add_le_add_right (hupd_le y) (w f)
          _ ≤ st.dist x := hInv.lb x y f hx
    · intro x es hch hne
      dsimp only at hch
      rcases pchain_avoid_or_split v hch with ha | ⟨a, b, rfl, hA, hB, hbne⟩
      · have hagree : ∀ y, y ≠ v → alookup ((v, (u, e)) :: st.pred) y = alookup st.pred y := by
          intro y hy
          simp [alookup_cons, hy]
        exact hInv.negCyc x es (pchainA_transfer hagree ha).toPChain hne
      · have hrot : PChain ((v, (u, e)) :: st.pred) v (b ++ a) v :=
          pchain_append hB hA.toPChain
        have hba : ((b ++ a).map w).sum = (((a ++ b)).map w).sum := by
          simp [add_comm]
        rw [← hba]
        exact ncinv_newcycle hInv hcond (b ++ a).length (b ++ a) (le_refl _) hrot
          (fun h0 => hbne (List.append_eq_nil.mp h0).1)
  · rw [relaxEdge_of_ge (not_lt.mp hcond)]
    exact hInv

theorem ncinv_foldl {g : Graph ν ε} {w : ε → D} :
    ∀ (l : List (ν × ν × ε)), (∀ t ∈ l, t ∈ edgesOf g) →
      ∀ (st : RState ν ε D), NCInv g w st.dist st.pred →
        NCInv g w ((l.foldl (relaxEdge w) st)).dist ((l.foldl (relaxEdge w) st)).pred := by
  intro l
  induction l with
  | nil => intro _ st h; exact h
  | cons t l ih =>
    intro hsub st h
    rw [List.foldl_cons]
    exact ih (fun x hx => hsub x (List.mem_cons_of_mem t hx))
      (relaxEdge w st t) (ncinv_relaxEdge h (hsub t (List.mem_cons_self t l)))

/-- The invariant is preserved by a full `relax` sweep. -/
theorem ncinv_relax {g : Graph ν ε} {w : ε → D} {d : ν → D} {p : PredMap ν ε}
    (h : NCInv g w d p) :
    NCInv g w (relax g w d p).dist (relax g w d p).pred := by
  rw [relax_eq_foldl]
  exact ncinv_foldl (edgesOf g) (fun t ht => ht) ⟨d, p, false⟩ h

end NCInvariant

section FindCycleLemmas

variable {ν : Type} [DecidableEq ν] {ε : Type} [DecidableEq ε]

theorem alookup_mem {α : Type} : ∀ (l : List (ν × α)) (x : ν) (a : α),
    alookup l x = some a → (x, a) ∈ l := by
  intro l
  induction l with
  | nil => intro x a h; exact absurd h (by simp [alookup])
  | cons p rest ih =>
    intro x a h
    obtain ⟨k, b⟩ := p
    rw [alookup_cons] at h
    by_cases hx : x = k
    · rw [if_pos hx] at h
      cases h
      rw [hx]
      exact List.mem_cons_self _ _
    · rw [if_neg hx] at h
      exact List.mem_cons_of_mem _ (ih x a h)

theorem fcWalk_visited_mono {pt : PredMap ν ε} {vtx : ν} :
    ∀ (fuel : Nat) (utx : ν) (visited : List (ν × ν)) (res : List ν × List (ν × ν)),
      fcWalk pt vtx fuel utx visited = some res →
      ∀ m t, alookup visited m = some t → alookup res.2 m = some t := by
  intro fuel
  induction fuel with
  | zero => intro utx visited res h; exact absurd h (by simp [fcWalk])
  | succ fuel ih =>
    intro utx visited res h m t hm
    cases hl : alookup pt utx with
    | none =>
      simp only [fcWalk, hl] at h
      cases h
      exact hm
    | some ue =>
      obtain ⟨u, e⟩ := ue
      cases hv : alookup visited u with
      | some tag =>
        simp only [fcWalk, hl, hv] at h
        cases h
        exact hm
      | none =>
        simp only [fcWalk, hl, hv] at h
        refine ih u ((u, vtx) :: visited) res h m t ?_
        rw [alookup_cons]
        by_cases hmu : m = u
        · rw [hmu] at hm
          rw [hm] at hv
          exact absurd hv (by simp)
        · rw [if_neg hmu]
          exact hm

theorem fcWalk_yield_tag {pt : PredMap ν ε} {vtx : ν} :
    ∀ (fuel : Nat) (utx : ν) (visited : List (ν × ν)) (res : List ν × List (ν × ν)),
      fcWalk pt vtx fuel utx visited = some res →
      ∀ h ∈ res.1, alookup res.2 h = some vtx := by
  intro fuel
  induction fuel with
  | zero => intro utx visited res h; exact absurd h (by simp [fcWalk])
  | succ fuel ih =>
    intro utx visited res h x hx
    cases hl : alookup pt utx with
    | none =>
      simp only [fcWalk, hl] at h
      cases h
      exact absurd hx (by simp)
    | some ue =>
      obtain ⟨u, e⟩ := ue
      cases hv : alookup visited u with
      | some tag =>
        simp only [fcWalk, hl, hv] at h
        cases h
        by_cases htag : tag = vtx
        · simp only [htag, if_pos rfl] at hx
          rcases List.mem_singleton.mp hx with rfl
          rw [hv, htag]
        · simp only [if_neg htag] at hx
          exact absurd hx (by simp)
      | none =>
        simp only [fcWalk, hl, hv] at h
        exact ih u ((u, vtx) :: visited) res h x hx

theorem fcWalk_yield_card {pt : PredMap ν ε} {vtx : ν} :
    ∀ (fuel : Nat) (utx : ν) (visited : List (ν × ν)) (res : List ν × List (ν × ν)),
      fcWalk pt vtx fuel utx visited = some res → res.1.length ≤ 1 := by
  intro fuel
  induction fuel with
  | zero => intro utx visited res h; exact absurd h (by simp [fcWalk])
  | succ fuel ih =>
    intro utx visited res h
    cases hl : alookup pt utx with
    | none =>
      simp only [fcWalk, hl] at h
      cases h
      simp
    | some ue =>
      obtain ⟨u, e⟩ := ue
      cases hv : alookup visited u with
      | some tag =>
        simp only [fcWalk, hl, hv] at h
        cases h
        by_cases htag : tag = vtx <;> simp [htag]
      | none =>
        simp only [fcWalk, hl, hv] at h
        exact ih u ((u, vtx) :: visited) res h

/-- Soundness of the policy-graph walk: every yielded handle lies on a
nonempty cycle of the policy graph, of length at most
(length of the walk so far) + (remaining fuel). -/
theorem fcWalk_sound {pt : PredMap ν ε} {vtx : ν} :
    ∀ (fuel : Nat) (utx : ν) (visited : List (ν × ν)) (res : List ν × List (ν × ν))
      (escur : List ε),
      fcWalk pt vtx fuel utx visited = some res →
      PChain pt vtx escur utx →
      (∀ m, alookup visited m = some vtx → ∃ l₁ l₂, escur = l₁ ++ l₂ ∧ PChain pt vtx l₁ m) →
      ∀ h ∈ res.1, ∃ es, PChain pt h es h ∧ es ≠ [] ∧ es.length ≤ escur.length + fuel := by
  intro fuel
  induction fuel with
  | zero => intro utx visited res escur h; exact absurd h (by simp [fcWalk])
  | succ fuel ih =>
    intro utx visited res escur h hch hvis x hx
    cases hl : alookup pt utx with
    | none =>
      simp only [fcWalk, hl] at h
      cases h
      exact absurd hx (by simp)
    | some ue =>
      obtain ⟨u, e⟩ := ue
      cases hv : alookup visited u with
      | some tag =>
        simp only [fcWalk, hl, hv] at h
        cases h
        by_cases htag : tag = vtx
        · simp only [htag, if_pos rfl] at hx
          rcases List.mem_singleton.mp hx with rfl
          subst htag
          obtain ⟨l₁, l₂, hsplit, hpre⟩ := hvis x hv
          rw [hsplit] at hch
          obtain ⟨m, hm1, hm2⟩ := pchain_split hch
          have hmx : m = x := pchain_det hm1 hpre
          subst hmx
          refine ⟨l₂ ++ [e], pchain_snoc hm2 hl, by simp, ?_⟩
          have : l₂.length ≤ escur.length := by
            rw [hsplit]
            simp
          simp only [List.length_append, List.length_cons, List.length_nil]
          omega
        · simp only [if_neg htag] at hx
          exact absurd hx (by simp)
      | none =>
        simp only [fcWalk, hl, hv] at h
        have hch' : PChain pt vtx (escur ++ [e]) u := pchain_snoc hch hl
        have hvis' : ∀ m, alookup ((u, vtx) :: visited) m = some vtx →
            ∃ l₁ l₂, escur ++ [e] = l₁ ++ l₂ ∧ PChain pt vtx l₁ m := by
          intro m hm
          rw [alookup_cons] at hm
          by_cases hmu : m = u
          · rw [if_pos hmu] at hm
            subst hmu
            exact ⟨escur ++ [e], [], by simp, hch'⟩
          · rw [if_neg hmu] at hm
            obtain ⟨l₁, l₂, hsplit, hpre⟩ := hvis m hm
            exact ⟨l₁, l₂ ++ [e], by rw [hsplit, List.append_assoc], hpre⟩
        have := ih u ((u, vtx) :: visited) res (escur ++ [e]) h hch' hvis' x hx
        obtain ⟨es, h1, h2, h3⟩ := this
        refine ⟨es, h1, h2, ?_⟩
        simp only [List.length_append, List.length_cons, List.length_nil] at h3
        omega

/-- With more fuel than there are unvisited policy-edge targets, the walk
always completes. -/
theorem fcWalk_isSome {pt : PredMap ν ε} {vtx : ν} :
    ∀ (fuel : Nat) (utx : ν) (visited : List (ν × ν)),
      ((pt.map (fun q => q.2.1)).toFinset.filter
          (fun x => alookup visited x = none)).card < fuel →
      (fcWalk pt vtx fuel utx visited).isSome := by
  intro fuel
  induction fuel with
  | zero => intro utx visited h; exact absurd h (by omega)
  | succ fuel ih =>
    intro utx visited hcard
    cases hl : alookup pt utx with
    | none => simp [fcWalk, hl]
    | some ue =>
      obtain ⟨u, e⟩ := ue
      cases hv : alookup visited u with
      | some tag => simp [fcWalk, hl, hv]
      | none =>
        simp only [fcWalk, hl, hv]
        apply ih u ((u, vtx) :: visited)
        have humem : u ∈ (pt.map (fun q => q.2.1)).toFinset.filter
            (fun x => alookup visited x = none) := by
          rw [Finset.mem_filter]
          constructor
          · rw [List.mem_toFinset]
            exact List.mem_map.mpr ⟨(utx, (u, e)), alookup_mem pt utx (u, e) hl, rfl⟩
          · exact hv
        have hset : (pt.map (fun q => q.2.1)).toFinset.filter
              (fun x => alookup ((u, vtx) :: visited) x = none)
            = ((pt.map (fun q => q.2.1)).toFinset.filter
              (fun x => alookup visited x = none)).erase u := by
          ext y
          rw [Finset.mem_erase, Finset.mem_filter, Finset.mem_filter]
          constructor
          · intro ⟨hy1, hy2⟩
            rw [alookup_cons] at hy2
            by_cases hyu : y = u
            · rw [if_pos hyu] at hy2
              exact absurd hy2 (by simp)
            · rw [if_neg hyu] at hy2
              exact ⟨hyu, hy1, hy2⟩
          · intro ⟨hyu, hy1, hy2⟩
            refine ⟨hy1, ?_⟩
            rw [alookup_cons, if_neg hyu]
            exact hy2
        rw [hset, Finset.card_erase_of_mem humem]
        have hpos : 1 ≤ ((pt.map (fun q => q.2.1)).toFinset.filter
            (fun x => alookup visited x = none)).card :=
          Finset.card_pos.mpr ⟨u, humem⟩
        omega

end FindCycleLemmas

section FindCycleOuter

variable {ν : Type} [DecidableEq ν] {ε : Type} [DecidableEq ε]

theorem fcWalk_visited_new {pt : PredMap ν ε} {vtx : ν} :
    ∀ (fuel : Nat) (utx : ν) (visited : List (ν × ν)) (res : List ν × List (ν × ν)),
      fcWalk pt vtx fuel utx visited = some res →
      ∀ m t, alookup res.2 m = some t → alookup visited m = some t ∨ t = vtx := by
  intro fuel
  induction fuel with
  | zero => intro utx visited res h; exact absurd h (by simp [fcWalk])
  | succ fuel ih =>
    intro utx visited res h m t hm
    cases hl : alookup pt utx with
    | none =>
      simp only [fcWalk, hl] at h
      cases h
      exact Or.inl hm
    | some ue =>
      obtain ⟨u, e⟩ := ue
      cases hv : alookup visited u with
      | some tag =>
        simp only [fcWalk, hl, hv] at h
        cases h
        exact Or.inl hm
      | none =>
        simp only [fcWalk, hl, hv] at h
        rcases ih u ((u, vtx) :: visited) res h m t hm with hold | hvtx
        · rw [alookup_cons] at hold
          by_cases hmu : m = u
          · rw [if_pos hmu] at hold
            cases hold
            exact Or.inr rfl
          · rw [if_neg hmu] at hold
            exact Or.inl hold
        · exact Or.inr hvtx

/-- The tag-closure invariant: every tag recorded in `visited` is itself a
visited node.  The walk preserves it. -/
theorem fcWalk_T {pt : PredMap ν ε} {vtx : ν} {fuel : Nat} {utx : ν}
    {visited : List (ν × ν)} {res : List ν × List (ν × ν)}
    (h : fcWalk pt vtx fuel utx visited = some res)
    (hT : ∀ m t, alookup visited m = some t → (alookup visited t).isSome)
    (hvtx : (alookup visited vtx).isSome) :
    ∀ m t, alookup res.2 m = some t → (alookup res.2 t).isSome := by
  intro m t hm
  rcases fcWalk_visited_new fuel utx visited res h m t hm with hold | rfl
  · obtain ⟨s, hs⟩ := Option.isSome_iff_exists.mp (hT m t hold)
    rw [fcWalk_visited_mono fuel utx visited res h t s hs]
    simp
  · obtain ⟨s, hs⟩ := Option.isSome_iff_exists.mp hvtx
    rw [fcWalk_visited_mono fuel utx visited res h t s hs]
    simp

theorem length_le_one_nodup {α : Type} : ∀ (l : List α), l.length ≤ 1 → l.Nodup := by
  intro l h
  cases l with
  | nil => exact List.nodup_nil
  | cons a tail =>
    cases tail with
    | nil => simp
    | cons b tail2 => simp at h

/-- Soundness of the outer `find_cycle` loop: under the tag-closure invariant
the yielded handles are pairwise distinct, each lies on a nonempty policy
cycle of bounded length, and each was unvisited on entry. -/
theorem fcOuter_sound {pt : PredMap ν ε} {wf : Nat} :
    ∀ (vtxs : List ν) (visited : List (ν × ν)) (ys : List ν),
      fcOuter pt wf vtxs visited = some ys →
      (∀ m t, alookup visited m = some t → (alookup visited t).isSome) →
      ys.Nodup
      ∧ (∀ h ∈ ys, ∃ es, PChain pt h es h ∧ es ≠ [] ∧ es.length ≤ wf)
      ∧ (∀ h ∈ ys, alookup visited h = none) := by
  intro vtxs
  induction vtxs with
  | nil =>
    intro visited ys h hT
    simp only [fcOuter] at h
    cases h
    refine ⟨List.nodup_nil, ?_, ?_⟩ <;> intro h hx <;> exact absurd hx (by simp)
  | cons vtx rest ih =>
    intro visited ys h hT
    by_cases hvtx : (alookup visited vtx).isSome
    · simp only [fcOuter, if_pos hvtx] at h
      exact ih visited ys h hT
    · have hnone : alookup visited vtx = none := Option.not_isSome_iff_eq_none.mp hvtx
      simp only [fcOuter, hvtx, Bool.false_eq_true, if_neg, if_false] at h
      cases hw : fcWalk pt vtx wf vtx ((vtx, vtx) :: visited) with
      | none =>
        rw [hw] at h
        exact absurd h (by simp)
      | some pr =>
        rw [hw] at h
        dsimp only at h
        cases hrec : fcOuter pt wf rest pr.2 with
        | none =>
          rw [hrec] at h
          exact absurd h (by simp)
        | some zs =>
          rw [hrec] at h
          dsimp only [Option.map] at h
          cases h
          have hT' : ∀ m t, alookup ((vtx, vtx) :: visited) m = some t →
              (alookup ((vtx, vtx) :: visited) t).isSome := by
            intro m t hm
            rw [alookup_cons] at hm
            by_cases hmv : m = vtx
            · rw [if_pos hmv] at hm
              cases hm
              simp [alookup_cons]
            · rw [if_neg hmv] at hm
              by_cases htv : t = vtx
              · simp [alookup_cons, htv]
              · rw [alookup_cons, if_neg htv]
                exact hT m t hm
          have hvtx' : (alookup ((vtx, vtx) :: visited) vtx).isSome := by
            simp [alookup_cons]
          have hpre : ∀ m, alookup ((vtx, vtx) :: visited) m = some vtx →
              ∃ l₁ l₂, ([] : List ε) = l₁ ++ l₂ ∧ PChain pt vtx l₁ m := by
            intro m hm
            rw [alookup_cons] at hm
            by_cases hmv : m = vtx
            · subst hmv
              exact ⟨[], [], rfl, PChain.refl m⟩
            · rw [if_neg hmv] at hm
              have := hT m vtx hm
              rw [hnone] at this
              exact absurd this (by simp)
          have hcyc1 : ∀ h ∈ pr.1, ∃ es, PChain pt h es h ∧ es ≠ [] ∧ es.length ≤ wf := by
            intro h hh
            have := fcWalk_sound wf vtx ((vtx, vtx) :: visited) pr [] hw
              (PChain.refl vtx) hpre h hh
            simpa using this
          have htag1 : ∀ h ∈ pr.1, alookup pr.2 h = some vtx :=
            fcWalk_yield_tag wf vtx ((vtx, vtx) :: visited) pr hw
          have hunvis1 : ∀ h ∈ pr.1, alookup visited h = none := by
            intro h hh
            cases hvh : alookup visited h with
            | none => rfl
            | some t =>
              by_cases hhv : h = vtx
              · rw [hhv] at hvh
                rw [hnone] at hvh
                exact absurd hvh (by simp)
              · have hstep : alookup ((vtx, vtx) :: visited) h = some t := by
                  rw [alookup_cons, if_neg hhv]
                  exact hvh
                have := fcWalk_visited_mono wf vtx ((vtx, vtx) :: visited) pr hw h t hstep
                rw [htag1 h hh] at this
                cases this
                have := hT h vtx hvh
                rw [hnone] at this
                exact absurd this (by simp)
          have hTpr : ∀ m t, alookup pr.2 m = some t → (alookup pr.2 t).isSome :=
            fcWalk_T hw hT' hvtx'
          obtain ⟨hnodup2, hcyc2, hunvis2⟩ := ih pr.2 zs hrec hTpr
          have hunvis2' : ∀ h ∈ zs, alookup visited h = none := by
            intro h hh
            cases hvh : alookup visited h with
            | none => rfl
            | some t =>
              by_cases hhv : h = vtx
              · rw [hhv] at hvh
                rw [hnone] at hvh
                exact absurd hvh (by simp)
              · have hstep : alookup ((vtx, vtx) :: visited) h = some t := by
                  rw [alookup_cons, if_neg hhv]
                  exact hvh
                have := fcWalk_visited_mono wf vtx ((vtx, vtx) :: visited) pr hw h t hstep
                rw [hunvis2 h hh] at this
                exact absurd this (by simp)
          refine ⟨?_, ?_, ?_⟩
          · rw [List.nodup_append]
            refine ⟨length_le_one_nodup pr.1
                (fcWalk_yield_card wf vtx ((vtx, vtx) :: visited) pr hw), hnodup2, ?_⟩
            intro a ha hb
            have h1 := htag1 a ha
            have h2 := hunvis2 a hb
            rw [h1] at h2
            exact absurd h2 (by simp)
          · intro h hh
            rcases List.mem_append.mp hh with h1 | h2
            · exact hcyc1 h h1
            · exact hcyc2 h h2
          · intro h hh
            rcases List.mem_append.mp hh with h1 | h2
            · exact hunvis1 h h1
            · exact hunvis2' h h2

theorem fcOuter_isSome {pt : PredMap ν ε} :
    ∀ (vtxs : List ν) (visited : List (ν × ν)),
      (fcOuter pt (pt.length + 1) vtxs visited).isSome := by
  intro vtxs
  induction vtxs with
  | nil => intro visited; simp [fcOuter]
  | cons vtx rest ih =>
    intro visited
    by_cases hvtx : (alookup visited vtx).isSome
    · simp only [fcOuter, if_pos hvtx]
      exact ih visited
    · simp only [fcOuter, hvtx, Bool.false_eq_true, if_false]
      have hcard : ((pt.map (fun q => q.2.1)).toFinset.filter
          (fun x => alookup ((vtx, vtx) :: visited) x = none)).card < pt.length + 1 := by
        have h1 := Finset.card_filter_le (pt.map (fun q => q.2.1)).toFinset
          (fun x => alookup ((vtx, vtx) :: visited) x = none)
        have h2 := List.toFinset_card_le (pt.map (fun q => q.2.1))
        rw [List.length_map] at h2
        omega
      have : (fcWalk pt vtx (pt.length + 1) vtx ((vtx, vtx) :: visited)).isSome :=
        fcWalk_isSome (pt.length + 1) vtx ((vtx, vtx) :: visited) hcard
      obtain ⟨pr, hpr⟩ := Option.isSome_iff_exists.mp this
      rw [hpr]
      dsimp only
      obtain ⟨zs, hzs⟩ := Option.isSome_iff_exists.mp (ih pr.2)
      rw [hzs]
      simp

theorem find_cycle_isSome (g : Graph ν ε) (pt : PredMap ν ε) :
    (find_cycle g pt).isSome :=
  fcOuter_isSome (g.map Prod.fst) []

/-- Soundness of `find_cycle`: the yielded handles are pairwise distinct and
each lies on a nonempty policy cycle of length at most `pt.length + 1`. -/
theorem find_cycle_sound {g : Graph ν ε} {pt : PredMap ν ε} {ys : List ν}
    (h : find_cycle g pt = some ys) :
    ys.Nodup ∧ ∀ x ∈ ys, ∃ es, PChain pt x es x ∧ es ≠ [] ∧ es.length ≤ pt.length + 1 := by
  have := fcOuter_sound (g.map Prod.fst) [] ys h
    (by intro m t hm; exact absurd hm (by simp [alookup]))
  exact ⟨this.1, this.2.1⟩

theorem clGo_correct {pt : PredMap ν ε} {handle : ν} :
    ∀ (es : List ε) (fuel : Nat) (vtx : ν) (acc : List ε),
      PChain pt vtx es handle → es ≠ [] → es.length ≤ fuel →
      ∃ es₀, clGo pt handle fuel vtx acc = acc.reverse ++ es₀
        ∧ PChain pt vtx es₀ handle ∧ es₀ ≠ [] := by
  intro es
  induction es with
  | nil => intro fuel vtx acc _ hne; exact absurd rfl hne
  | cons e es ih =>
    intro fuel vtx acc hch hne hlen
    cases hch with
    | step hl htail =>
      rename_i u
      cases fuel with
      | zero => exact absurd hlen (by simp)
      | succ fuel =>
        by_cases hu : u = handle
        · subst hu
          refine ⟨[e], ?_, PChain.step hl (PChain.refl u), by simp⟩
          simp only [clGo, hl, if_pos rfl]
          simp
        · cases es with
          | nil =>
            cases htail
            exact absurd rfl hu
          | cons e2 es2 =>
            obtain ⟨es₀, heq, hch₀, hne₀⟩ := ih fuel u (e :: acc) htail (by simp)
              (by simpa using Nat.le_of_succ_le_succ hlen)
            refine ⟨e :: es₀, ?_, PChain.step hl hch₀, by simp⟩
            simp only [clGo, hl, if_neg hu]
            rw [heq]
            simp

/-- `cycle_list` on a handle lying on a policy cycle of length at most
`pt.length + 1` returns a nonempty policy cycle at that handle. -/
theorem cycle_list_of_cycle {pt : PredMap ν ε} {x : ν} {es : List ε}
    (hch : PChain pt x es x) (hne : es ≠ []) (hlen : es.length ≤ pt.length + 1) :
    PChain pt x (cycle_list pt x) x ∧ cycle_list pt x ≠ [] := by
  obtain ⟨es₀, heq, hch₀, hne₀⟩ := clGo_correct es (pt.length + 1) x [] hch hne hlen
  unfold cycle_list
  rw [heq]
  simpa using ⟨hch₀, hne₀⟩

end FindCycleOuter

section HowardLemmas

variable {ν : Type} [DecidableEq ν] {ε : Type} [DecidableEq ε]
variable {D : Type} [LinearOrderedAddCommGroup D]

theorem foldl_relaxEdge_of_changed_false {w : ε → D} :
    ∀ (l : List (ν × ν × ε)) (st : RState ν ε D),
      (l.foldl (relaxEdge w) st).changed = false →
      l.foldl (relaxEdge w) st = st ∧ ∀ t ∈ l, ¬ (st.dist t.1 + w t.2.2 < st.dist t.2.1) := by
  intro l
  induction l with
  | nil => intro st h; exact ⟨rfl, by simp⟩
  | cons t l ih =>
    intro st h
    rw [List.foldl_cons] at h
    by_cases hc : st.dist t.1 + w t.2.2 < st.dist t.2.1
    · obtain ⟨u, v, e⟩ := t
      rw [relaxEdge_of_lt hc] at h
      rw [foldl_relaxEdge_changed_mono l rfl] at h
      exact absurd h (by simp)
    · obtain ⟨u, v, e⟩ := t
      have hre : relaxEdge w st (u, v, e) = st := relaxEdge_of_ge (not_lt.mp hc)
      rw [hre] at h
      obtain ⟨heq, hall⟩ := ih st h
      refine ⟨by rw [List.foldl_cons, hre, heq], ?_⟩
      intro x hx
      rcases List.mem_cons.mp hx with rfl | hx'
      · exact hc
      · exact hall x hx'

/-- When `relax` reports no change, the state is untouched and every edge of
the graph satisfies the triangle inequality. -/
theorem relax_changed_false {g : Graph ν ε} {w : ε → D} {d : ν → D} {p : PredMap ν ε}
    (h : (relax g w d p).changed = false) :
    relax g w d p = ⟨d, p, false⟩
    ∧ ∀ t ∈ edgesOf g, ¬ (d t.1 + w t.2.2 < d t.2.1) := by
  rw [relax_eq_foldl] at h ⊢
  exact foldl_relaxEdge_of_changed_false (edgesOf g) ⟨d, p, false⟩ h

/-- C1 core: starting from any state satisfying the invariant, every cycle
yielded by the `howard` loop has strictly negative total weight. -/
theorem howardGo_yields_neg {g : Graph ν ε} {w : ε → D} :
    ∀ (fuel : Nat) (st : RState ν ε D),
      NCInv g w st.dist st.pred →
      ∀ c ∈ (howardGo g w fuel st).1, ((c.map w).sum) < 0 := by
  intro fuel
  induction fuel with
  | zero => intro st _ c hc; exact absurd hc (by simp [howardGo])
  | succ fuel ih =>
    intro st hInv c hc
    have hInv' : NCInv g w (relax g w st.dist st.pred).dist (relax g w st.dist st.pred).pred :=
      ncinv_relax hInv
    by_cases hch : (relax g w st.dist st.pred).changed = true
    · cases hfc : find_cycle g (relax g w st.dist st.pred).pred with
      | none =>
        simp only [howardGo, hch, if_pos, hfc] at hc
        exact absurd hc (by simp)
      | some handles =>
        by_cases hemp : handles.isEmpty
        · simp only [howardGo, hch, if_pos, hfc, hemp, if_true] at hc
          exact ih (relax g w st.dist st.pred) hInv' c hc
        · simp only [howardGo, hch, if_pos, hfc, hemp, Bool.false_eq_true, if_false] at hc
          obtain ⟨x, hx, rfl⟩ := List.mem_map.mp hc
          have hxh : x ∈ handles :=
            (List.takeWhile_sublist _).subset hx
          obtain ⟨_, hsound⟩ := find_cycle_sound hfc
          obtain ⟨es, hes, hene, helen⟩ := hsound x hxh
          obtain ⟨hcl, hclne⟩ := cycle_list_of_cycle hes hene helen
          exact hInv'.negCyc x _ hcl hclne
    · simp only [howardGo, hch, Bool.false_eq_true, if_false] at hc
      exact absurd hc (by simp)

/-- C1: every cycle yielded by `howard(dist, w)` has strictly negative total
weight; in particular a zero-weight cycle is never yielded. -/
theorem howard_cycles_negative (g : Graph ν ε) (w : ε → D) (dist : ν → D) (fuel : Nat)
    (c : List ε) (hc : c ∈ (howard g w dist fuel).1) : ((c.map w).sum) < 0 :=
  howardGo_yields_neg fuel ⟨dist, [], false⟩ (ncinv_initial g w dist) c hc

/-- The negative self-loop graph. -/
def gneg : Graph Nat Int := [(0, [(0, -1)])]

/-- Witness for `howard_cycles_negative`: on the negative self-loop,
`howard` yields the cycle `[-1]`, whose weight is negative. -/
theorem howard_cycles_negative_witness :
    (howard gneg (fun e => e) (fun _ => (0 : Int)) 2).1 = [[-1]]
    ∧ ((([-1] : List Int).map (fun e => e)).sum) < 0 :=
  ⟨by decide, howard_cycles_negative gneg (fun e => e) (fun _ => (0 : Int)) 2 [-1] (by decide)⟩

/-- C2 core: a `howard` loop that finishes normally without yielding any
cycle leaves a state whose `pred` entries all satisfy
`dist[v] ≤ dist[u] + w(e)`. -/
theorem howardGo_no_yield_fixed {g : Graph ν ε} {w : ε → D} :
    ∀ (fuel : Nat) (st : RState ν ε D),
      NCInv g w st.dist st.pred →
      (howardGo g w fuel st).1 = [] → (howardGo g w fuel st).2.2 = true →
      ∀ v u e, alookup (howardGo g w fuel st).2.1.pred v = some (u, e) →
        (howardGo g w fuel st).2.1.dist v ≤ (howardGo g w fuel st).2.1.dist u + w e := by
  intro fuel
  induction fuel with
  | zero => intro st _ _ hfin; exact absurd hfin (by simp [howardGo])
  | succ fuel ih =>
    intro st hInv hys hfin v u e hp
    have hInv' : NCInv g w (relax g w st.dist st.pred).dist (relax g w st.dist st.pred).pred :=
      ncinv_relax hInv
    by_cases hch : (relax g w st.dist st.pred).changed = true
    · cases hfc : find_cycle g (relax g w st.dist st.pred).pred with
      | none =>
        simp only [howardGo, hch, if_pos, hfc] at hfin
        exact absurd hfin (by simp)
      | some handles =>
        by_cases hemp : handles.isEmpty
        · simp only [howardGo, hch, if_pos, hfc, hemp, if_true] at hys hfin hp ⊢
          exact ih (relax g w st.dist st.pred) hInv' hys hfin v u e hp
        · exfalso
          simp only [howardGo, hch, if_pos, hfc, hemp, Bool.false_eq_true, if_false] at hys hfin
          have hgood : handles.takeWhile
              (fun h => is_negative (relax g w st.dist st.pred).pred
                (relax g w st.dist st.pred).dist w h) = [] :=
            List.map_eq_nil_iff.mp hys
          rw [hgood] at hfin
          have h0 : (0 : Nat) = handles.length := Nat.eq_of_beq_eq_true (by simpa using hfin)
          exact hemp (List.isEmpty_iff.mpr (List.length_eq_zero.mp h0.symm))
    · simp only [howardGo, hch, Bool.false_eq_true, if_false] at hp ⊢
      have hfalse : (relax g w st.dist st.pred).changed = false := by
        cases hB : (relax g w st.dist st.pred).changed with
        | false => rfl
        | true => exact absurd hB hch
      obtain ⟨heq, hall⟩ := relax_changed_false hfalse
      rw [heq] at hp ⊢
      have hedge : (u, v, e) ∈ edgesOf g := hInv.edges v u e hp
      have := hall (u, v, e) hedge
      exact not_lt.mp this

/-- C2 (amended): after a `howard` invocation that is exhausted having
yielded no cycle (the fixed point was reached), every node `v` with a
predecessor entry `(u, e)` satisfies `dist[v] ≤ dist[u] + w(e)`.  (When a
cycle is yielded the final state satisfies the opposite inequality, see
`howard_pred_ub_fails`.) -/
theorem howard_pred_relaxed_when_no_cycle (g : Graph ν ε) (w : ε → D) (dist : ν → D)
    (fuel : Nat) (hys : (howard g w dist fuel).1 = [])
    (hfin : (howard g w dist fuel).2.2 = true)
    (v u : ν) (e : ε) (hp : alookup (howard g w dist fuel).2.1.pred v = some (u, e)) :
    (howard g w dist fuel).2.1.dist v ≤ (howard g w dist fuel).2.1.dist u + w e :=
  howardGo_no_yield_fixed fuel ⟨dist, [], false⟩ (ncinv_initial g w dist) hys hfin v u e hp

/-- A two-node graph with one improving edge and no cycle. -/
def gtwo : Graph Nat Int := [(0, [(1, -1)]), (1, [])]

/-- Witness for `howard_pred_relaxed_when_no_cycle` on `gtwo`. -/
theorem howard_pred_relaxed_witness :
    (howard gtwo (fun e => e) (fun _ => (0 : Int)) 2).2.1.dist 1
      ≤ (howard gtwo (fun e => e) (fun _ => (0 : Int)) 2).2.1.dist 0 + (-1) :=
  howard_pred_relaxed_when_no_cycle gtwo (fun e => e) (fun _ => (0 : Int)) 2
    (by decide) (by decide) 1 0 (-1) (by decide)

/-- Counterexample to C2 as stated: on the negative self-loop the generator
is exhausted (one cycle was yielded), node `0` has the predecessor entry
`(0, -1)`, and `dist[0] ≤ dist[0] + (-1)` fails. -/
theorem howard_pred_ub_fails :
    (howard gneg (fun e => e) (fun _ => (0 : Int)) 2).2.2 = true
    ∧ alookup (howard gneg (fun e => e) (fun _ => (0 : Int)) 2).2.1.pred 0 = some (0, -1)
    ∧ ¬ ((howard gneg (fun e => e) (fun _ => (0 : Int)) 2).2.1.dist 0
        ≤ (howard gneg (fun e => e) (fun _ => (0 : Int)) 2).2.1.dist 0 + (-1)) := by
  decide

end HowardLemmas

section ClaimC7

variable {ν : Type} [DecidableEq ν] {ε : Type} [DecidableEq ε]
variable {D : Type} [LinearOrderedAddCommGroup D]

/-- The first edge collected by `cycle_list` at a cycle handle is the
handle's own `pred` entry. -/
theorem cycle_list_head {pt : PredMap ν ε} {x : ν} {es : List ε}
    (hch : PChain pt x es x) (hne : es ≠ []) (hlen : es.length ≤ pt.length + 1) :
    ∃ u e rest, cycle_list pt x = e :: rest ∧ alookup pt x = some (u, e) := by
  obtain ⟨hcl, hclne⟩ := cycle_list_of_cycle hch hne hlen
  cases hcle : cycle_list pt x with
  | nil => exact absurd hcle hclne
  | cons e rest =>
    rw [hcle] at hcl
    cases hcl with
    | step hl htail => exact ⟨_, e, rest, rfl, hl⟩

/-- C7 core: with pairwise distinct edge payloads, the cycles yielded in one
round are pairwise distinct lists. -/
theorem howardGo_yields_nodup {g : Graph ν ε} {w : ε → D}
    (hinj : ((edgesOf g).map (fun t => t.2.2)).Nodup) :
    ∀ (fuel : Nat) (st : RState ν ε D),
      NCInv g w st.dist st.pred →
      ((howardGo g w fuel st).1).Pairwise (fun a b => a ≠ b) := by
  intro fuel
  induction fuel with
  | zero => intro st _; simp [howardGo]
  | succ fuel ih =>
    intro st hInv
    have hInv' : NCInv g w (relax g w st.dist st.pred).dist (relax g w st.dist st.pred).pred :=
      ncinv_relax hInv
    by_cases hch : (relax g w st.dist st.pred).changed = true
    · cases hfc : find_cycle g (relax g w st.dist st.pred).pred with
      | none =>
        simp only [howardGo, hch, if_pos, hfc]
        simp
      | some handles =>
        by_cases hemp : handles.isEmpty
        · simp only [howardGo, hch, if_pos, hfc, hemp, if_true]
          exact ih (relax g w st.dist st.pred) hInv'
        · simp only [howardGo, hch, if_pos, hfc, hemp, Bool.false_eq_true, if_false]
          obtain ⟨hnodup, hsound⟩ := find_cycle_sound hfc
          have hgoodsub : (handles.takeWhile
              (fun h => is_negative (relax g w st.dist st.pred).pred
                (relax g w st.dist st.pred).dist w h)).Sublist handles :=
            List.takeWhile_sublist _
          have hgoodnodup := hnodup.sublist hgoodsub
          refine List.Nodup.map_on ?_ hgoodnodup
          intro x hx y hy hxy
          have hxh : x ∈ handles := hgoodsub.subset hx
          have hyh : y ∈ handles := hgoodsub.subset hy
          obtain ⟨esx, hesx, hnex, hlenx⟩ := hsound x hxh
          obtain ⟨esy, hesy, hney, hleny⟩ := hsound y hyh
          obtain ⟨ux, ex, restx, hclx, hlx⟩ := cycle_list_head hesx hnex hlenx
          obtain ⟨uy, ey, resty, hcly, hly⟩ := cycle_list_head hesy hney hleny
          rw [hclx, hcly] at hxy
          have hee : ex = ey := (List.cons.injEq _ _ _ _).mp hxy |>.1
          have hmx : (ux, x, ex) ∈ edgesOf g := hInv'.edges x ux ex hlx
          have hmy : (uy, y, ey) ∈ edgesOf g := hInv'.edges y uy ey hly
          have := List.inj_on_of_nodup_map hinj hmx hmy (by simpa using hee)
          cases this
          rfl
    · simp only [howardGo, hch, Bool.false_eq_true, if_false]
      simp

/-- C7 (amended): within a single `howard` invocation, when the edge
payloads of the digraph are pairwise distinct (payloads identify edges), no
cycle is yielded twice — the yielded cycle lists are pairwise distinct.
(With duplicated payloads two disjoint policy cycles can serialise to the
same list, see `howard_yields_duplicate`.) -/
theorem howard_yields_distinct (g : Graph ν ε) (w : ε → D) (dist : ν → D) (fuel : Nat)
    (hinj : ((edgesOf g).map (fun t => t.2.2)).Nodup) :
    ((howard g w dist fuel).1).Pairwise (fun a b => a ≠ b) :=
  howardGo_yields_nodup hinj fuel ⟨dist, [], false⟩ (ncinv_initial g w dist)

/-- Two disjoint negative two-cycles whose edges all carry the same payload. -/
def gfour : Graph Nat Int := [(0, [(1, -1)]), (1, [(0, -1)]), (2, [(3, -1)]), (3, [(2, -1)])]

/-- Two disjoint negative two-cycles with pairwise distinct payloads. -/
def gfourd : Graph Nat Nat := [(0, [(1, 10)]), (1, [(0, 11)]), (2, [(3, 12)]), (3, [(2, 13)])]

/-- Counterexample to C7 as stated: on `gfour` a single `howard` invocation
yields the list `[-1, -1]` twice (two node-disjoint policy cycles with equal
payload lists), so the yielded sequence is not pairwise distinct. -/
theorem howard_yields_duplicate :
    (howard gfour (fun e => e) (fun _ => (0 : Int)) 2).1 = [[-1, -1], [-1, -1]]
    ∧ ¬ ((howard gfour (fun e => e) (fun _ => (0 : Int)) 2).1).Pairwise
        (fun a b => a ≠ b) := by
  decide

/-- Witness for `howard_yields_distinct` on `gfourd`, where two distinct
cycles are yielded in one invocation. -/
theorem howard_yields_distinct_witness :
    ((howard gfourd (fun _ => (-1 : Int)) (fun _ => (0 : Int)) 2).1).Pairwise
      (fun a b => a ≠ b) :=
  howard_yields_distinct gfourd (fun _ => (-1 : Int)) (fun _ => (0 : Int)) 2 (by decide)

end ClaimC7

section WalkDefs

variable {ν : Type} [DecidableEq ν] {ε : Type} [DecidableEq ε]
variable {D : Type} [LinearOrderedAddCommGroup D]

/-- Edge membership test for the digraph. -/
def edgeB (g : Graph ν ε) (u v : ν) (e : ε) : Bool := decide ((u, v, e) ∈ edgesOf g)

/-- A directed walk in the digraph from `u`, given as the list of traversed
(payload, target node) pairs. -/
def IsWalkB (g : Graph ν ε) : ν → List (ε × ν) → Bool
  | _, [] => true
  | u, q :: rest => edgeB g u q.2 q.1 && IsWalkB g q.2 rest

/-- The final node of a walk. -/
def walkEnd (u : ν) : List (ε × ν) → ν
  | [] => u
  | q :: rest => walkEnd q.2 rest

/-- The total weight of a walk. -/
def wsum (w : ε → D) (l : List (ε × ν)) : D := (l.map (fun q => w q.1)).sum

/-- The digraph has no cycle of strictly negative total weight: every
nonempty closed walk has nonnegative weight. -/
def NoNegCycle (g : Graph ν ε) (w : ε → D) : Prop :=
  ∀ (v : ν) (l : List (ε × ν)),
    IsWalkB g v l = true → walkEnd v l = v → l ≠ [] → 0 ≤ wsum w l

theorem walkEnd_append (l₁ l₂ : List (ε × ν)) :
    ∀ u : ν, walkEnd u (l₁ ++ l₂) = walkEnd (walkEnd u l₁) l₂ := by
  induction l₁ with
  | nil => intro u; rfl
  | cons q rest ih => intro u; exact ih q.2

theorem isWalkB_append (g : Graph ν ε) (l₁ l₂ : List (ε × ν)) :
    ∀ u : ν, IsWalkB g u (l₁ ++ l₂)
      = (IsWalkB g u l₁ && IsWalkB g (walkEnd u l₁) l₂) := by
  induction l₁ with
  | nil => intro u; simp [IsWalkB, walkEnd]
  | cons q rest ih =>
    intro u
    show (edgeB g u q.2 q.1 && IsWalkB g q.2 (rest ++ l₂))
      = ((edgeB g u q.2 q.1 && IsWalkB g q.2 rest) && IsWalkB g (walkEnd q.2 rest) l₂)
    rw [ih q.2, Bool.and_assoc]

theorem wsum_append (w : ε → D) (l₁ l₂ : List (ε × ν)) :
    wsum w (l₁ ++ l₂) = wsum w l₁ + wsum w l₂ := by
  unfold wsum
  rw [List.map_append, List.sum_append]

theorem edge_mem_nodes {g : Graph ν ε} {u v : ν} {e : ε}
    (h : (u, v, e) ∈ edgesOf g) : u ∈ nodesOf g ∧ v ∈ nodesOf g := by
  unfold edgesOf at h
  rw [List.mem_flatMap] at h
  obtain ⟨p, hp, hq⟩ := h
  rw [List.mem_map] at hq
  obtain ⟨q, hq2, heq⟩ := hq
  cases heq
  constructor
  · unfold nodesOf
    rw [List.mem_toFinset, List.mem_append]
    exact Or.inl (List.mem_map.mpr ⟨p, hp, rfl⟩)
  · unfold nodesOf
    rw [List.mem_toFinset, List.mem_append]
    exact Or.inr (List.mem_flatMap.mpr ⟨p, hp, List.mem_map.mpr ⟨q, hq2, rfl⟩⟩)

theorem walk_nodes_mem {g : Graph ν ε} :
    ∀ (l : List (ε × ν)) (u : ν), IsWalkB g u l = true →
      ∀ q ∈ l, q.2 ∈ nodesOf g := by
  intro l
  induction l with
  | nil => intro u _ q hq; exact absurd hq (by simp)
  | cons p rest ih =>
    intro u hw q hq
    simp only [IsWalkB, Bool.and_eq_true] at hw
    rcases List.mem_cons.mp hq with rfl | hq'
    · exact (edge_mem_nodes (of_decide_eq_true hw.1)).2
    · exact ih p.2 hw.2 q hq'

theorem walkEnd_take :
    ∀ (l : List (ε × ν)) (u : ν) (i : Nat) (h : i < l.length),
      walkEnd u (l.take (i + 1)) = (l.get ⟨i, h⟩).2 := by
  intro l
  induction l with
  | nil => intro u i h; exact absurd h (by simp)
  | cons q rest ih =>
    intro u i h
    cases i with
    | zero => simp [walkEnd]
    | succ i =>
      simp only [List.take_succ_cons, walkEnd]
      exact ih q.2 i (by simpa using Nat.lt_of_succ_lt_succ h)

theorem walk_nonneg_of_nonneg {g : Graph ν ε} {w : ε → D}
    (hw : ∀ t ∈ edgesOf g, 0 ≤ w t.2.2) :
    ∀ (l : List (ε × ν)) (u : ν), IsWalkB g u l = true → 0 ≤ wsum w l := by
  intro l
  induction l with
  | nil => intro u _; simp [wsum]
  | cons q rest ih =>
    intro u hwk
    simp only [IsWalkB, Bool.and_eq_true] at hwk
    have h1 : 0 ≤ w q.1 := hw (u, q.2, q.1) (of_decide_eq_true hwk.1)
    have h2 : 0 ≤ wsum w rest := ih q.2 hwk.2
    have : wsum w (q :: rest) = w q.1 + wsum w rest := by
      unfold wsum
      simp
    rw [this]
    exact add_nonneg h1 h2

/-- A digraph whose edge weights are all nonnegative has no negative cycle. -/
theorem noNegCycle_of_nonneg (g : Graph ν ε) (w : ε → D)
    (hw : ∀ t ∈ edgesOf g, 0 ≤ w t.2.2) : NoNegCycle g w := by
  intro v l hwk _ _
  exact walk_nonneg_of_nonneg hw l v hwk

end WalkDefs

section WalkReduce

variable {ν : Type} [DecidableEq ν] {ε : Type} [DecidableEq ε]
variable {D : Type} [LinearOrderedAddCommGroup D]

/-- Cycle removal: in a digraph with no negative cycle, every walk can be
shortened to a walk with the same endpoints, no larger weight, and length at
most the number of nodes. -/
theorem walk_reduce {g : Graph ν ε} {w : ε → D} (hnn : NoNegCycle g w) :
    ∀ (n : Nat) (l : List (ε × ν)) (u : ν), l.length ≤ n → IsWalkB g u l = true →
      ∃ l', IsWalkB g u l' = true ∧ walkEnd u l' = walkEnd u l
        ∧ wsum w l' ≤ wsum w l ∧ l'.length ≤ nodeCount g := by
  intro n
  induction n with
  | zero =>
    intro l u hlen hw
    refine ⟨l, hw, rfl, le_refl _, ?_⟩
    omega
  | succ n ih =>
    intro l u hlen hw
    by_cases hN : l.length ≤ nodeCount g
    · exact ⟨l, hw, rfl, le_refl _, hN⟩
    · have hNlt : nodeCount g < l.length := not_le.mp hN
      have hmaps : ∀ i ∈ (Finset.univ : Finset (Fin l.length)), (l.get i).2 ∈ nodesOf g := by
        intro i _
        exact walk_nodes_mem l u hw (l.get i) (List.get_mem l i.1 i.2)
      have hcard : (nodesOf g).card < (Finset.univ : Finset (Fin l.length)).card := by
        rw [Finset.card_univ, Fintype.card_fin]
        exact hNlt
      obtain ⟨i, _, j, _, hne, heq⟩ :=
        Finset.exists_ne_map_eq_of_card_lt_of_maps_to hcard hmaps
      have key : ∀ (i j : Fin l.length), i < j → (l.get i).2 = (l.get j).2 →
          ∃ l', IsWalkB g u l' = true ∧ walkEnd u l' = walkEnd u l
            ∧ wsum w l' ≤ wsum w l ∧ l'.length ≤ nodeCount g := by
        intro i j hij heq
        set ni := i.1 with hni
        set nj := j.1 with hnj
        have hij' : ni < nj := hij
        have hjlt : nj < l.length := j.2
        set A := l.take (ni + 1) with hA
        set B := (l.drop (ni + 1)).take (nj - ni) with hB
        set C := l.drop (nj + 1) with hC
        have hAB : A ++ B = l.take (nj + 1) := by
          rw [hA, hB, ← List.take_add]
          congr 1
          omega
        have hl : A ++ B ++ C = l := by
          rw [hAB, hC, List.take_append_drop]
        set z := (l.get i).2 with hz
        have hEA : walkEnd u A = z := walkEnd_take l u ni i.2
        have hEAB : walkEnd u (A ++ B) = z := by
          rw [hAB, walkEnd_take l u nj j.2]
          exact heq.symm
        have hw' : IsWalkB g u (A ++ B ++ C) = true := by
          rw [hl]
          exact hw
        rw [isWalkB_append, Bool.and_eq_true] at hw'
        obtain ⟨hwAB, hwC⟩ := hw'
        have hwAB' := hwAB
        rw [isWalkB_append, Bool.and_eq_true] at hwAB'
        obtain ⟨hwA, hwB⟩ := hwAB'
        have hBlen : B.length = nj - ni := by
          rw [hB, List.length_take, List.length_drop]
          omega
        have hBne : B ≠ [] := by
          intro h0
          rw [h0] at hBlen
          simp at hBlen
          omega
        have hwB' : IsWalkB g z B = true := by
          rw [← hEA]
          exact hwB
        have hBend : walkEnd z B = z := by
          conv_lhs => rw [← hEA]
          rw [← walkEnd_append A B u]
          exact hEAB
        have hB0 : 0 ≤ wsum w B := hnn z B hwB' hBend hBne
        have hwl' : IsWalkB g u (A ++ C) = true := by
          rw [isWalkB_append, Bool.and_eq_true]
          refine ⟨hwA, ?_⟩
          rw [hEA, ← hEAB]
          exact hwC
        have hend' : walkEnd u (A ++ C) = walkEnd u l := by
          have e1 : walkEnd u (A ++ C) = walkEnd z C := by
            rw [walkEnd_append A C u, hEA]
          have e2 : walkEnd u l = walkEnd z C := by
            rw [← hl, walkEnd_append (A ++ B) C u, hEAB]
          rw [e1, e2]
        have hws : wsum w (A ++ C) ≤ wsum w l := by
          rw [← hl, wsum_append, wsum_append, wsum_append]
          exact add_le_add_right (le_add_of_nonneg_right hB0) (wsum w C)
        have hlen_eq : A.length + B.length + C.length = l.length := by
          have hcl := congrArg List.length hl
          simp only [List.length_append] at hcl
          omega
        have hlen' : (A ++ C).length ≤ n := by
          rw [List.length_append]
          omega
        obtain ⟨l'', hw'', hend'', hws'', hlen''⟩ := ih (A ++ C) u hlen' hwl'
        exact ⟨l'', hw'', by rw [hend'', hend'], le_trans hws'' hws, hlen''⟩
      rcases lt_or_gt_of_ne hne with hij | hij
      · exact key i j hij heq
      · exact key j i hij heq.symm

end WalkReduce

section IterRelax

variable {ν : Type} [DecidableEq ν] {ε : Type} [DecidableEq ε]
variable {D : Type} [LinearOrderedAddCommGroup D]

theorem relaxEdge_dist_le (w : ε → D) (st : RState ν ε D) (t : ν × ν × ε) (v : ν) :
    (relaxEdge w st t).dist v ≤ st.dist v := by
  obtain ⟨x, y, e⟩ := t
  by_cases hc : st.dist x + w e < st.dist y
  · rw [relaxEdge_of_lt hc]
    by_cases hv : v = y
    · subst hv
      show updF st.dist v (st.dist x + w e) v ≤ st.dist v
      simp only [updF, if_pos rfl]
      exact le_of_lt hc
    · show updF st.dist y (st.dist x + w e) v ≤ st.dist v
      simp only [updF, if_neg hv]
      exact le_refl _
  · rw [relaxEdge_of_ge (not_lt.mp hc)]

theorem foldl_relaxEdge_dist_le (w : ε → D) :
    ∀ (l : List (ν × ν × ε)) (st : RState ν ε D) (v : ν),
      (l.foldl (relaxEdge w) st).dist v ≤ st.dist v := by
  intro l
  induction l with
  | nil => intro st v; exact le_refl _
  | cons t l ih =>
    intro st v
    rw [List.foldl_cons]
    exact le_trans (ih (relaxEdge w st t) v) (relaxEdge_dist_le w st t v)

theorem relax_dist_le (g : Graph ν ε) (w : ε → D) (d : ν → D) (p : PredMap ν ε) (v : ν) :
    (relax g w d p).dist v ≤ d v := by
  rw [relax_eq_foldl]
  exact foldl_relaxEdge_dist_le w (edgesOf g) ⟨d, p, false⟩ v

theorem foldl_relaxEdge_pass (w : ε → D) :
    ∀ (l : List (ν × ν × ε)) (st : RState ν ε D), ∀ t ∈ l,
      (l.foldl (relaxEdge w) st).dist t.2.1 ≤ st.dist t.1 + w t.2.2 := by
  intro l
  induction l with
  | nil => intro st t ht; exact absurd ht (by simp)
  | cons a l ih =>
    intro st t ht
    rw [List.foldl_cons]
    rcases List.mem_cons.mp ht with rfl | ht'
    · obtain ⟨x, y, e⟩ := t
      have h1 : (relaxEdge w st (x, y, e)).dist y ≤ st.dist x + w e := by
        by_cases hc : st.dist x + w e < st.dist y
        · rw [relaxEdge_of_lt hc]
          show updF st.dist y (st.dist x + w e) y ≤ st.dist x + w e
          simp [updF]
        · rw [relaxEdge_of_ge (not_lt.mp hc)]
          exact not_lt.mp hc
      exact le_trans (foldl_relaxEdge_dist_le w l _ y) h1
    · exact le_trans (ih (relaxEdge w st a) t ht')
        (add_le_add_right (relaxEdge_dist_le w st a t.1) (w t.2.2))

/-- One relaxation pass respects each edge with respect to the pass's entry
distances. -/
theorem relax_pass (g : Graph ν ε) (w : ε → D) (d : ν → D) (p : PredMap ν ε) :
    ∀ t ∈ edgesOf g, (relax g w d p).dist t.2.1 ≤ d t.1 + w t.2.2 := by
  intro t ht
  rw [relax_eq_foldl]
  exact foldl_relaxEdge_pass w (edgesOf g) ⟨d, p, false⟩ t ht

/-- Every distance value is achieved by some walk from an initial node. -/
def Achieved (g : Graph ν ε) (w : ε → D) (d0 : ν → D) (dist : ν → D) : Prop :=
  ∀ v, ∃ u l, IsWalkB g u l = true ∧ walkEnd u l = v ∧ dist v = d0 u + wsum w l

theorem achieved_relaxEdge {g : Graph ν ε} {w : ε → D} {d0 : ν → D}
    {st : RState ν ε D} {t : ν × ν × ε} (hmem : t ∈ edgesOf g)
    (h : Achieved g w d0 st.dist) : Achieved g w d0 (relaxEdge w st t).dist := by
  obtain ⟨x, y, e⟩ := t
  by_cases hc : st.dist x + w e < st.dist y
  · rw [relaxEdge_of_lt hc]
    intro v
    by_cases hv : v = y
    · subst hv
      obtain ⟨u, l, hwk, hend, hval⟩ := h x
      refine ⟨u, l ++ [(e, v)], ?_, ?_, ?_⟩
      · rw [isWalkB_append, Bool.and_eq_true]
        refine ⟨hwk, ?_⟩
        rw [hend]
        show (edgeB g x v e && IsWalkB g v []) = true
        rw [Bool.and_eq_true]
        exact ⟨decide_eq_true hmem, rfl⟩
      · rw [walkEnd_append]
        rfl
      · show updF st.dist v (st.dist x + w e) v = d0 u + wsum w (l ++ [(e, v)])
        simp only [updF, if_pos rfl]
        rw [wsum_append, hval]
        have : wsum w [(e, v)] = w e := by simp [wsum]
        rw [this, add_assoc]
        simp
    · obtain ⟨u, l, hwk, hend, hval⟩ := h v
      refine ⟨u, l, hwk, hend, ?_⟩
      show updF st.dist y (st.dist x + w e) v = d0 u + wsum w l
      simp only [updF, if_neg hv]
      exact hval
  · rw [relaxEdge_of_ge (not_lt.mp hc)]
    exact h

theorem achieved_foldl {g : Graph ν ε} {w : ε → D} {d0 : ν → D} :
    ∀ (l : List (ν × ν × ε)), (∀ t ∈ l, t ∈ edgesOf g) →
      ∀ (st : RState ν ε D), Achieved g w d0 st.dist →
        Achieved g w d0 ((l.foldl (relaxEdge w) st)).dist := by
  intro l
  induction l with
  | nil => intro _ st h; exact h
  | cons t l ih =>
    intro hsub st h
    rw [List.foldl_cons]
    exact ih (fun x hx => hsub x (List.mem_cons_of_mem t hx)) (relaxEdge w st t)
      (achieved_relaxEdge (hsub t (List.mem_cons_self t l)) h)

theorem achieved_relax {g : Graph ν ε} {w : ε → D} {d0 d : ν → D} {p : PredMap ν ε}
    (h : Achieved g w d0 d) : Achieved g w d0 (relax g w d p).dist := by
  rw [relax_eq_foldl]
  exact achieved_foldl (edgesOf g) (fun t ht => ht) ⟨d, p, false⟩ h

/-- The state after `k` full relaxation passes of the `howard` loop. -/
def iterRelax (g : Graph ν ε) (w : ε → D) (st : RState ν ε D) : Nat → RState ν ε D
  | 0 => st
  | k + 1 => relax g w (iterRelax g w st k).dist (iterRelax g w st k).pred

theorem iterRelax_front (g : Graph ν ε) (w : ε → D) :
    ∀ (k : Nat) (st : RState ν ε D),
      iterRelax g w st (k + 1) = iterRelax g w (relax g w st.dist st.pred) k := by
  intro k
  induction k with
  | zero => intro st; rfl
  | succ k ih =>
    intro st
    show relax g w (iterRelax g w st (k + 1)).dist (iterRelax g w st (k + 1)).pred = _
    rw [ih st]
    rfl

theorem iterRelax_dist_le (g : Graph ν ε) (w : ε → D) (st : RState ν ε D) :
    ∀ (k : Nat) (v : ν), (iterRelax g w st k).dist v ≤ st.dist v := by
  intro k
  induction k with
  | zero => intro v; exact le_refl _
  | succ k ih =>
    intro v
    exact le_trans (relax_dist_le g w (iterRelax g w st k).dist (iterRelax g w st k).pred v)
      (ih v)

theorem achieved_iterRelax {g : Graph ν ε} {w : ε → D} {st : RState ν ε D}
    (h : Achieved g w st.dist st.dist) :
    ∀ (k : Nat), Achieved g w st.dist (iterRelax g w st k).dist := by
  intro k
  induction k with
  | zero => exact h
  | succ k ih => exact achieved_relax ih

/-- After `k` passes, every walk of length at most `k` bounds the distance of
its final node. -/
theorem iterRelax_walk_bound (g : Graph ν ε) (w : ε → D) (st : RState ν ε D) :
    ∀ (k : Nat) (u : ν) (l : List (ε × ν)),
      IsWalkB g u l = true → l.length ≤ k →
      (iterRelax g w st k).dist (walkEnd u l) ≤ st.dist u + wsum w l := by
  intro k
  induction k with
  | zero =>
    intro u l hwk hlen
    rw [List.length_eq_zero.mp (Nat.le_zero.mp hlen)]
    show st.dist u ≤ st.dist u + wsum w ([] : List (ε × ν))
    simp [wsum]
  | succ k ih =>
    intro u l hwk hlen
    rcases List.eq_nil_or_concat l with rfl | ⟨l', q, rfl⟩
    · show (iterRelax g w st (k + 1)).dist u ≤ st.dist u + wsum w ([] : List (ε × ν))
      have := iterRelax_dist_le g w st (k + 1) u
      simpa [wsum] using this
    · obtain ⟨e, y⟩ := q
      rw [List.concat_eq_append] at hwk hlen ⊢
      rw [isWalkB_append, Bool.and_eq_true] at hwk
      obtain ⟨hwl', hstep⟩ := hwk
      simp only [IsWalkB, Bool.and_eq_true] at hstep
      have hedge : (walkEnd u l', y, e) ∈ edgesOf g := of_decide_eq_true hstep.1
      have hend : walkEnd u (l' ++ [(e, y)]) = y := by
        rw [walkEnd_append]
        rfl
      rw [hend]
      have hlen' : l'.length ≤ k := by
        rw [List.length_append] at hlen
        simp at hlen
        omega
      have ihb := ih u l' hwl' hlen'
      have hpass := relax_pass g w (iterRelax g w st k).dist (iterRelax g w st k).pred
        (walkEnd u l', y, e) hedge
      have : (iterRelax g w st (k + 1)).dist y
          ≤ (iterRelax g w st k).dist (walkEnd u l') + w e := hpass
      calc (iterRelax g w st (k + 1)).dist y
          ≤ (iterRelax g w st k).dist (walkEnd u l') + w e := this
        _ ≤ (st.dist u + wsum w l') + w e := add_le_add_right ihb (w e)
        _ = st.dist u + wsum w (l' ++ [(e, y)]) := by
            rw [wsum_append, add_assoc]
            congr 1
            simp [wsum]

end IterRelax

section ClaimC5

variable {ν : Type} [DecidableEq ν] {ε : Type} [DecidableEq ε]
variable {D : Type} [LinearOrderedAddCommGroup D]

theorem achieved_refl (g : Graph ν ε) (w : ε → D) (d : ν → D) : Achieved g w d d := by
  intro v
  refine ⟨v, [], rfl, rfl, ?_⟩
  simp [wsum]

theorem foldl_relaxEdge_no_update {w : ε → D} :
    ∀ (l : List (ν × ν × ε)) (st : RState ν ε D),
      (∀ t ∈ l, ¬ (st.dist t.1 + w t.2.2 < st.dist t.2.1)) →
      l.foldl (relaxEdge w) st = st := by
  intro l
  induction l with
  | nil => intro st _; rfl
  | cons t l ih =>
    intro st hall
    rw [List.foldl_cons]
    obtain ⟨x, y, e⟩ := t
    have hre : relaxEdge w st (x, y, e) = st :=
      relaxEdge_of_ge (not_lt.mp (hall (x, y, e) (List.mem_cons_self _ _)))
    rw [hre]
    exact ih st (fun q hq => hall q (List.mem_cons_of_mem _ hq))

theorem relax_fixed {g : Graph ν ε} {w : ε → D} {d : ν → D} {p : PredMap ν ε}
    (hall : ∀ t ∈ edgesOf g, ¬ (d t.1 + w t.2.2 < d t.2.1)) :
    relax g w d p = ⟨d, p, false⟩ := by
  rw [relax_eq_foldl]
  exact foldl_relaxEdge_no_update (edgesOf g) ⟨d, p, false⟩ hall

/-- After `nodeCount g` passes the relaxation has reached a fixed point when
the digraph has no negative cycle. -/
theorem relax_fixed_after_N (g : Graph ν ε) (w : ε → D) (hnn : NoNegCycle g w)
    (st : RState ν ε D) :
    (relax g w (iterRelax g w st (nodeCount g)).dist
      (iterRelax g w st (nodeCount g)).pred).changed = false := by
  have hall : ∀ t ∈ edgesOf g,
      ¬ ((iterRelax g w st (nodeCount g)).dist t.1 + w t.2.2
          < (iterRelax g w st (nodeCount g)).dist t.2.1) := by
    rintro ⟨x, y, e⟩ hmem hlt
    obtain ⟨u, l, hwk, hend, hval⟩ :=
      achieved_iterRelax (achieved_refl g w st.dist) (nodeCount g) x
    have hwk2 : IsWalkB g u (l ++ [(e, y)]) = true := by
      rw [isWalkB_append, Bool.and_eq_true]
      refine ⟨hwk, ?_⟩
      rw [hend]
      show (edgeB g x y e && IsWalkB g y []) = true
      rw [Bool.and_eq_true]
      exact ⟨decide_eq_true hmem, rfl⟩
    obtain ⟨l₂, hwk3, hend3, hws3, hlen3⟩ :=
      walk_reduce hnn (l ++ [(e, y)]).length (l ++ [(e, y)]) u (le_refl _) hwk2
    have hendy : walkEnd u (l ++ [(e, y)]) = y := by
      rw [walkEnd_append]
      rfl
    rw [hendy] at hend3
    have hbound := iterRelax_walk_bound g w st (nodeCount g) u l₂ hwk3 hlen3
    rw [hend3] at hbound
    have hws4 : wsum w (l ++ [(e, y)]) = wsum w l + w e := by
      rw [wsum_append]
      congr 1
      simp [wsum]
    have hfinal : (iterRelax g w st (nodeCount g)).dist y
        ≤ (iterRelax g w st (nodeCount g)).dist x + w e := by
      calc (iterRelax g w st (nodeCount g)).dist y
          ≤ st.dist u + wsum w l₂ := hbound
        _ ≤ st.dist u + wsum w (l ++ [(e, y)]) := add_le_add_left hws3 _
        _ = (st.dist u + wsum w l) + w e := by rw [hws4, add_assoc]
        _ = (iterRelax g w st (nodeCount g)).dist x + w e := by rw [← hval]
    exact absurd hlt (not_lt.mpr hfinal)
  rw [relax_fixed hall]

/-- Every policy-graph walk is a (reversed) walk of the digraph. -/
theorem pchain_to_walk {g : Graph ν ε} {pt : PredMap ν ε} (w : ε → D)
    (hedges : ∀ v u e, alookup pt v = some (u, e) → (u, v, e) ∈ edgesOf g) :
    ∀ {x t : ν} {es : List ε}, PChain pt x es t →
      ∃ l : List (ε × ν), IsWalkB g t l = true ∧ walkEnd t l = x
        ∧ l.length = es.length ∧ wsum w l = (es.map w).sum := by
  intro x t es h
  induction h with
  | refl v =>
    refine ⟨[], rfl, rfl, rfl, ?_⟩
    simp [wsum]
  | @step v u t' e es' hl _ ih =>
    obtain ⟨l', hwk', hend', hlen', hws'⟩ := ih
    refine ⟨l' ++ [(e, v)], ?_, ?_, ?_, ?_⟩
    · rw [isWalkB_append, Bool.and_eq_true]
      refine ⟨hwk', ?_⟩
      rw [hend']
      show (edgeB g u v e && IsWalkB g v []) = true
      rw [Bool.and_eq_true]
      exact ⟨decide_eq_true (hedges v u e hl), rfl⟩
    · rw [walkEnd_append]
      rfl
    · simp [hlen']
    · rw [wsum_append, hws']
      have h1 : wsum w [(e, v)] = w e := by simp [wsum]
      rw [h1]
      simp [add_comm]

/-- Under the invariant, in a digraph with no negative cycle the policy graph
is acyclic, so `find_cycle` yields nothing. -/
theorem find_cycle_empty_of_noneg {g : Graph ν ε} {w : ε → D} {dist : ν → D}
    {pt : PredMap ν ε} (hnn : NoNegCycle g w) (hInv : NCInv g w dist pt)
    {handles : List ν} (hfc : find_cycle g pt = some handles) : handles = [] := by
  cases hhd : handles with
  | nil => rfl
  | cons x rest =>
    exfalso
    obtain ⟨_, hsound⟩ := find_cycle_sound hfc
    obtain ⟨es, hes, hene, _⟩ := hsound x (by rw [hhd]; exact List.mem_cons_self x rest)
    have hneg := hInv.negCyc x es hes hene
    obtain ⟨l, hwk, hend, hlen, hws⟩ := pchain_to_walk w hInv.edges hes
    have hlne : l ≠ [] := by
      intro h0
      rw [h0] at hlen
      exact hene (List.length_eq_zero.mp hlen.symm)
    have := hnn x l hwk hend hlne
    rw [hws] at this
    exact absurd hneg (not_lt.mpr this)

/-- C5 core (yields): under the invariant and without negative cycles the
`howard` loop never yields a cycle, at any fuel. -/
theorem howardGo_noneg_yields {g : Graph ν ε} {w : ε → D} (hnn : NoNegCycle g w) :
    ∀ (fuel : Nat) (st : RState ν ε D),
      NCInv g w st.dist st.pred → (howardGo g w fuel st).1 = [] := by
  intro fuel
  induction fuel with
  | zero => intro st _; rfl
  | succ fuel ih =>
    intro st hInv
    have hInv' : NCInv g w (relax g w st.dist st.pred).dist (relax g w st.dist st.pred).pred :=
      ncinv_relax hInv
    by_cases hch : (relax g w st.dist st.pred).changed = true
    · cases hfc : find_cycle g (relax g w st.dist st.pred).pred with
      | none => simp [howardGo, hch, hfc]
      | some handles =>
        have hhe : handles = [] := find_cycle_empty_of_noneg hnn hInv' hfc
        subst hhe
        simp only [howardGo, hch, if_pos, hfc, List.isEmpty_nil, if_true]
        exact ih (relax g w st.dist st.pred) hInv'
    · simp [howardGo, hch]

/-- C5 core (termination): if some iterate within the fuel is a relaxation
fixed point, the `howard` loop exits normally. -/
theorem howardGo_noneg_finishes {g : Graph ν ε} {w : ε → D} (hnn : NoNegCycle g w) :
    ∀ (fuel : Nat) (st : RState ν ε D),
      NCInv g w st.dist st.pred →
      (∃ k < fuel, (relax g w (iterRelax g w st k).dist
          (iterRelax g w st k).pred).changed = false) →
      (howardGo g w fuel st).2.2 = true := by
  intro fuel
  induction fuel with
  | zero =>
    intro st _ hex
    obtain ⟨k, hk, _⟩ := hex
    exact absurd hk (by omega)
  | succ fuel ih =>
    intro st hInv hex
    have hInv' : NCInv g w (relax g w st.dist st.pred).dist (relax g w st.dist st.pred).pred :=
      ncinv_relax hInv
    by_cases hch : (relax g w st.dist st.pred).changed = true
    · cases hfc : find_cycle g (relax g w st.dist st.pred).pred with
      | none =>
        have := find_cycle_isSome g (relax g w st.dist st.pred).pred
        rw [hfc] at this
        exact absurd this (by simp)
      | some handles =>
        have hhe : handles = [] := find_cycle_empty_of_noneg hnn hInv' hfc
        subst hhe
        simp only [howardGo, hch, if_pos, hfc, List.isEmpty_nil, if_true]
        apply ih (relax g w st.dist st.pred) hInv'
        obtain ⟨k, hk, hfix⟩ := hex
        cases k with
        | zero =>
          exfalso
          have : (relax g w st.dist st.pred).changed = false := hfix
          rw [hch] at this
          exact absurd this (by simp)
        | succ k =>
          refine ⟨k, by omega, ?_⟩
          rw [iterRelax_front g w k st] at hfix
          exact hfix
    · simp [howardGo, hch]

/-- C5: on a digraph with no cycle of strictly negative total weight,
`howard(dist, w)` yields no cycle (for every fuel) and the relaxation loop
reaches its fixed point within `nodeCount g + 1` passes, so the generator is
exhausted normally. -/
theorem howard_no_neg_cycle (g : Graph ν ε) (w : ε → D) (dist : ν → D)
    (hnn : NoNegCycle g w) :
    (∀ fuel, (howard g w dist fuel).1 = [])
    ∧ (howard g w dist (nodeCount g + 1)).2.2 = true := by
  constructor
  · intro fuel
    exact howardGo_noneg_yields hnn fuel ⟨dist, [], false⟩ (ncinv_initial g w dist)
  · apply howardGo_noneg_finishes hnn (nodeCount g + 1) ⟨dist, [], false⟩
      (ncinv_initial g w dist)
    exact ⟨nodeCount g, Nat.lt_succ_self _,
      relax_fixed_after_N g w hnn ⟨dist, [], false⟩⟩

/-- The three-node doctest digraph of `neg_cycle.py` (edges carry their
integer weights, all nonnegative). -/
def gthree : Graph Nat Int :=
  [(0, [(1, 7), (2, 5)]), (1, [(0, 0), (2, 3)]), (2, [(1, 1), (0, 2)])]

/-- Witness for `howard_no_neg_cycle` on the doctest digraph. -/
theorem howard_no_neg_cycle_witness :
    (howard gthree (fun e => e) (fun _ => (0 : Int)) 4).1 = []
    ∧ (howard gthree (fun e => e) (fun _ => (0 : Int)) (nodeCount gthree + 1)).2.2 = true := by
  have h := howard_no_neg_cycle gthree (fun e => e) (fun _ => (0 : Int))
    (noNegCycle_of_nonneg gthree (fun e => e) (by decide))
  exact ⟨h.1 4, h.2⟩

end ClaimC5
